import Mathlib

/-!
Package `tool` of `go.tool`: the wrapper around the `go` command (`tool.go`).

A shallow embedding of `tool.go`.  A Go `string` and a Go `[]byte` are both
finite sequences of bytes; they are modelled by `List Byte`.  The process-wide
variable `goBinFallback` is threaded through explicitly, and the two calls that
leave the program (`exec.LookPath` and `cmd.Run`) take their results from an
explicit description of the environment.
-/

set_option autoImplicit false

namespace GoTool

/-- One byte. -/
abbrev Byte := Fin 256

/-- A Go `string` (also used for `[]byte`): a sequence of bytes. -/
abbrev GoString := List Byte

/-- The bytes of an ASCII literal of the source text, such as `"-o"`.
Only used on literals all of whose characters are below 128. -/
def lit (s : String) : GoString :=
  s.toList.map (fun c => Fin.ofNat c.toNat)

/-- The Go struct `Options` (tool.go, lines 12-24); `Parallel` is a `uint`. -/
structure Options where
  GoBin : GoString
  ImportPaths : List GoString
  Output : GoString
  ForceAll : Bool
  Parallel : Nat
  Compiler : GoString
  GccGoFlags : GoString
  GcFlags : GoString
  LdFlags : GoString
  Tags : GoString
  Verbose : Bool
deriving DecidableEq, Repr

/-- The digit loop of `fmt` for an unsigned integer in base 10: while `u ≥ 10`
the least significant digit is written in front of what is already there, and
the last digit (below 10) is written at the end.  The first argument bounds the
number of iterations. -/
def fmtUintLoop : Nat → Nat → GoString → GoString
  | 0, _, buf => buf
  | k + 1, u, buf =>
    if 10 ≤ u then fmtUintLoop k (u / 10) (Fin.ofNat (48 + u % 10) :: buf)
    else Fin.ofNat (48 + u) :: buf

/-- `fmt.Sprintf("%d", u)` for an unsigned `u`. -/
def fmtUint (u : Nat) : GoString :=
  fmtUintLoop (u + 1) u []

/-- The Go struct `CommandError` (tool.go, lines 26-30). -/
structure CommandError where
  fullCommand : GoString
  out : GoString
  err : GoString
deriving DecidableEq, Repr

/-- The Go `error` values that `tool.go` returns: the value made by
`fmt.Errorf` (known by its message) and a `*CommandError`. -/
inductive GoError where
  | errorf (msg : GoString)
  | commandError (e : CommandError)
deriving DecidableEq, Repr

/-- What `exec.LookPath("go")` returns: a path and an error.  The error is
`none` for `nil` and otherwise carries the text of the error. -/
structure LookPathResult where
  path : GoString
  err : Option GoString
deriving DecidableEq, Repr

/-- What running the subprocess yields: the bytes captured from its standard
output and standard error, and the error of `cmd.Run()` (`none` for `nil`). -/
structure RunResult where
  stdout : GoString
  stderr : GoString
  err : Option GoString
deriving DecidableEq, Repr

/-- The environment of one call: what `exec.LookPath("go")` returns if it is
called, and what running a binary with an argument vector yields. -/
structure World where
  lookPath : LookPathResult
  run : GoString → List GoString → RunResult

/-- The state of the process: the package variable `goBinFallback`
(tool.go, line 33), together with a record of the calls that left the program:
the number of `exec.LookPath` calls made so far, and the binary and argument
vector of every `cmd.Run()` made so far. -/
structure Proc where
  goBinFallback : GoString
  lookups : Nat
  runs : List (GoString × List GoString)
deriving DecidableEq, Repr

/-- The function `goBin` (tool.go, lines 35-48). -/
def goBin (explicit : GoString) (look : LookPathResult) (s : Proc) :
    (GoString × Option GoError) × Proc :=
  if explicit ≠ [] then
    ((explicit, none), s)
  else if s.goBinFallback ≠ [] then
    ((s.goBinFallback, none), s)
  else
    let s1 : Proc := { s with goBinFallback := look.path, lookups := s.lookups + 1 }
    match look.err with
    | some e => (([], some (GoError.errorf (lit "Error finding go binary: " ++ e))), s1)
    | none => ((s1.goBinFallback, none), s1)

/-- The method `StdErr` (tool.go, lines 59-61). -/
def CommandError.StdErr (e : CommandError) : GoString := e.err

/-- The method `StdOut` (tool.go, lines 63-65). -/
def CommandError.StdOut (e : CommandError) : GoString := e.out

/-- `strings.Join(elems, sep)`: nothing for no element, the element itself for
one, and otherwise the first element followed by `sep` and the next element,
for every further element. -/
def stringsJoin : List GoString → GoString → GoString
  | [], _ => []
  | [a], _ => a
  | a :: rest, sep => rest.foldl (fun b s => b ++ sep ++ s) a

/-- `bytes.IndexByte(s, c)`: the index of the first `c` in `s`; `none` stands
for `-1`. -/
def indexByte : GoString → Byte → Option Nat
  | [], _ => none
  | b :: s, c => if b = c then some 0 else (indexByte s c).map (fun i => i + 1)

/-- `bytes.Count(s, sep)` for a separator of one byte. -/
def countByte : GoString → Byte → Nat
  | [], _ => 0
  | b :: s, c => (if b = c then 1 else 0) + countByte s c

/-- The loop of `genSplit` in package `bytes`, run at most `n` times: cut `s`
at the first separator, keep what stands before it, and go on with what
follows; what is left at the end is the last piece. -/
def genSplitLoop (sep : Byte) : Nat → GoString → List GoString
  | 0, s => [s]
  | n + 1, s =>
    match indexByte s sep with
    | none => [s]
    | some m => s.take m :: genSplitLoop sep n (s.drop (m + 1))

/-- `bytes.Split(s, sep)` for a separator `sep` of exactly one byte, as in the
source, whose separator is `"\n"`: `genSplit` with `n = Count(s, sep) + 1`,
capped at `len(s) + 1`. -/
def bytesSplit (s : GoString) (sep : Byte) : List GoString :=
  let n := countByte s sep + 1
  let n := if n > s.length + 1 then s.length + 1 else n
  genSplitLoop sep (n - 1) s

/-- The newline byte. -/
def newline : Byte := 10

/-- The loop over `affectedBytes` (tool.go, lines 117-122): an empty piece is
skipped, any other is appended to `affected`. -/
def affectedLoop : List GoString → List GoString → List GoString
  | [], affected => affected
  | importPath :: rest, affected =>
    if importPath.length = 0 then affectedLoop rest affected
    else affectedLoop rest (affected ++ [importPath])

/-- The argument vector that `Options.Command` builds (tool.go, lines 68-98). -/
def Options.args (o : Options) (command : GoString) : List GoString :=
  let args := [command]
  let args := if o.Output ≠ [] then args ++ [lit "-o", o.Output] else args
  let args := if o.ForceAll then args ++ [lit "-a"] else args
  let args := if o.Parallel ≠ 0 then args ++ [lit "-p", fmtUint o.Parallel] else args
  let args := if o.Compiler ≠ [] then args ++ [lit "-compiler", o.Compiler] else args
  let args := if o.GccGoFlags ≠ [] then args ++ [lit "-gccgoflags", o.GccGoFlags] else args
  let args := if o.GcFlags ≠ [] then args ++ [lit "-gcflags", o.GcFlags] else args
  let args := if o.LdFlags ≠ [] then args ++ [lit "-ldflags", o.LdFlags] else args
  let args := if o.Tags ≠ [] then args ++ [lit "-tags", o.Tags] else args
  let args := if o.Verbose then args ++ [lit "-v"] else args
  o.ImportPaths.foldl (fun args importPath => args ++ [importPath]) args

/-- The two results of `Options.Command`: the slice `affected` (`none` for
`nil`) and the error (`none` for `nil`). -/
structure CommandResult where
  affected : Option (List GoString)
  err : Option GoError
deriving DecidableEq, Repr

/-- The method `Options.Command` (tool.go, lines 67-124). -/
def Options.Command (o : Options) (command : GoString) (w : World) (s : Proc) :
    CommandResult × Proc :=
  let args := o.args command
  match goBin o.GoBin w.lookPath s with
  | ((_, some err), s1) => (⟨none, some err⟩, s1)
  | ((bin, none), s1) =>
    let r := w.run bin args
    let s2 : Proc := { s1 with runs := s1.runs ++ [(bin, args)] }
    match r.err with
    | some _ =>
      (⟨none, some (GoError.commandError
          ⟨bin ++ lit " " ++ stringsJoin args (lit " "), r.stdout, r.stderr⟩)⟩, s2)
    | none =>
      let affectedBytes := bytesSplit r.stderr newline
      (⟨some (affectedLoop affectedBytes []), none⟩, s2)

/-- A sequence of `goBin` calls, each with its own argument and its own answer
of the lookup; the results are dropped and the state is passed on. -/
def goBinCalls : List (GoString × LookPathResult) → Proc → Proc
  | [], s => s
  | (explicit, look) :: rest, s => goBinCalls rest (goBin explicit look s).2

/-! ## The library functions behind `Error`: UTF-8 decoding and trimming -/

/-- The constant `utf8.RuneError`, the rune U+FFFD. -/
def RuneError : Nat := 0xFFFD

/-- The constant `utf8.RuneSelf`: bytes below it are runes of their own. -/
def RuneSelf : Nat := 0x80

/-- The constant `utf8.UTFMax`: the greatest number of bytes of an encoded rune. -/
def UTFMax : Nat := 4

/-- The size that the table `first` of package `utf8` gives for a leading byte
`p0` between `0xC2` and `0xF4`. -/
def firstSize (p0 : Nat) : Nat :=
  if p0 < 0xE0 then 2 else if p0 < 0xF0 then 3 else 4

/-- The lowest second byte that `acceptRanges` of package `utf8` accepts after
the leading byte `p0`. -/
def acceptLo (p0 : Nat) : Nat :=
  if p0 = 0xE0 then 0xA0 else if p0 = 0xF0 then 0x90 else 0x80

/-- The highest second byte that `acceptRanges` of package `utf8` accepts after
the leading byte `p0`. -/
def acceptHi (p0 : Nat) : Nat :=
  if p0 = 0xED then 0x9F else if p0 = 0xF4 then 0x8F else 0xBF

/-- `utf8.DecodeRune(p)`: the first rune of `p` and the number of bytes it takes;
`(RuneError, 0)` for empty `p` and `(RuneError, 1)` for a wrong encoding.  In
the table `first`, bytes below `0x80` are ASCII, bytes from `0xC2` to `0xF4` lead
an encoding and every other byte is invalid.  The masks and shifts of the source
are written as remainders and products. -/
def DecodeRune (p : GoString) : Nat × Nat :=
  match p with
  | [] => (RuneError, 0)
  | p0 :: t =>
    if p0.val < 0x80 then (p0.val, 1)
    else if p0.val < 0xC2 ∨ 0xF4 < p0.val then (RuneError, 1)
    else if p.length < firstSize p0.val then (RuneError, 1)
    else
      let b1 := (t.getD 0 0).val
      if b1 < acceptLo p0.val ∨ acceptHi p0.val < b1 then (RuneError, 1)
      else if firstSize p0.val ≤ 2 then (p0.val % 32 * 64 + b1 % 64, 2)
      else
        let b2 := (t.getD 1 0).val
        if b2 < 0x80 ∨ 0xBF < b2 then (RuneError, 1)
        else if firstSize p0.val ≤ 3 then (p0.val % 16 * 4096 + b1 % 64 * 64 + b2 % 64, 3)
        else
          let b3 := (t.getD 2 0).val
          if b3 < 0x80 ∨ 0xBF < b3 then (RuneError, 1)
          else (p0.val % 8 * 262144 + b1 % 64 * 4096 + b2 % 64 * 64 + b3 % 64, 4)

/-- `utf8.RuneStart(b)`: `b` is not a continuation byte (`b & 0xC0 != 0x80`). -/
def RuneStart (b : Byte) : Bool :=
  !(0x80 ≤ b.val && b.val < 0xC0)

/-- The loop of `utf8.DecodeLastRune` that walks back to the start of the last
rune.  The argument is the value of `start` before `start--`; the result is the
value of `start` after the loop and after `if start < 0 { start = 0 }`. -/
def lastRuneStartLoop (p : GoString) (lim : Nat) : Nat → Nat
  | 0 => 0
  | k + 1 =>
    if k < lim then k
    else if RuneStart (p.getD k 0) then k
    else lastRuneStartLoop p lim k

/-- `utf8.DecodeLastRune(p)`: the last rune of `p` and the number of bytes it
takes; `(RuneError, 0)` for empty `p` and `(RuneError, 1)` for a wrong encoding. -/
def DecodeLastRune (p : GoString) : Nat × Nat :=
  let n := p.length
  if n = 0 then (RuneError, 0)
  else
    let r := (p.getD (n - 1) 0).val
    if r < RuneSelf then (r, 1)
    else
      let lim := n - UTFMax
      let start := lastRuneStartLoop p lim (n - 1)
      let rs := DecodeRune (p.drop start)
      if start + rs.2 ≠ n then (RuneError, 1) else rs

/-- `unicode.IsSpace(r)`: within Latin-1 the eight runes of the `switch`;
beyond it the table `unicode.White_Space` of the Go release, which is given as
the predicate `White_Space`. -/
def IsSpace (White_Space : Nat → Bool) (r : Nat) : Bool :=
  if r ≤ 0xFF then
    r = 0x09 || r = 0x0A || r = 0x0B || r = 0x0C || r = 0x0D || r = 0x20 || r = 0x85 || r = 0xA0
  else White_Space r

/-- The loop of `indexFunc` in package `bytes`, at index `start`; the first
argument bounds the number of iterations.  `none` stands for `-1`. -/
def indexFuncLoop (s : GoString) (f : Nat → Bool) (truth : Bool) : Nat → Nat → Option Nat
  | 0, _ => none
  | fuel + 1, start =>
    if start < s.length then
      let r := (s.getD start 0).val
      let rw := if r ≥ RuneSelf then DecodeRune (s.drop start) else (r, 1)
      if f rw.1 = truth then some start
      else indexFuncLoop s f truth fuel (start + rw.2)
    else none

/-- The function `indexFunc` of package `bytes`: the index of the first rune
`r` with `f(r) == truth`, decoding from the left. -/
def indexFunc (s : GoString) (f : Nat → Bool) (truth : Bool) : Option Nat :=
  indexFuncLoop s f truth s.length 0

/-- The loop of `lastIndexFunc` in package `bytes`, at index `i`; the first
argument bounds the number of iterations.  `none` stands for `-1`. -/
def lastIndexFuncLoop (s : GoString) (f : Nat → Bool) (truth : Bool) : Nat → Nat → Option Nat
  | 0, _ => none
  | fuel + 1, i =>
    if 0 < i then
      let r := (s.getD (i - 1) 0).val
      let rs := if r ≥ RuneSelf then DecodeLastRune (s.take i) else (r, 1)
      if f rs.1 = truth then some (i - rs.2)
      else lastIndexFuncLoop s f truth fuel (i - rs.2)
    else none

/-- The function `lastIndexFunc` of package `bytes`: the index of the last rune
`r` with `f(r) == truth`, decoding from the right. -/
def lastIndexFunc (s : GoString) (f : Nat → Bool) (truth : Bool) : Option Nat :=
  lastIndexFuncLoop s f truth s.length s.length

/-- `bytes.TrimLeftFunc(s, f)`. -/
def TrimLeftFunc (s : GoString) (f : Nat → Bool) : GoString :=
  match indexFunc s f false with
  | none => []
  | some i => s.drop i

/-- `bytes.TrimRightFunc(s, f)`. -/
def TrimRightFunc (s : GoString) (f : Nat → Bool) : GoString :=
  match lastIndexFunc s f false with
  | some i =>
    if (s.getD i 0).val ≥ RuneSelf then s.take (i + (DecodeRune (s.drop i)).2)
    else s.take (i + 1)
  | none => s.take 0

/-- `bytes.TrimFunc(s, f)`. -/
def TrimFunc (s : GoString) (f : Nat → Bool) : GoString :=
  TrimRightFunc (TrimLeftFunc s f) f

/-- The table `asciiSpace` of package `bytes`: tab, newline, vertical tab, form
feed, carriage return and space. -/
def asciiSpace (c : Byte) : Bool :=
  c.val = 0x09 || c.val = 0x0A || c.val = 0x0B || c.val = 0x0C || c.val = 0x0D || c.val = 0x20

/-- The first loop of `bytes.TrimSpace`, from index `start`: `Sum.inl start` when
it ends (at the end of `s` or at an ASCII byte that is no space), `Sum.inr start`
when it meets a byte that is not ASCII. -/
def trimSpaceStart (s : GoString) : Nat → Nat → Nat ⊕ Nat
  | 0, start => Sum.inl start
  | fuel + 1, start =>
    if start < s.length then
      let c := s.getD start 0
      if c.val ≥ RuneSelf then Sum.inr start
      else if asciiSpace c = false then Sum.inl start
      else trimSpaceStart s fuel (start + 1)
    else Sum.inl start

/-- The second loop of `bytes.TrimSpace`, from index `stop` down to `start`:
`Sum.inl stop` when it ends, `Sum.inr stop` when it meets a byte that is not
ASCII. -/
def trimSpaceStop (s : GoString) (start : Nat) : Nat → Nat ⊕ Nat
  | 0 => Sum.inl 0
  | k + 1 =>
    if start < k + 1 then
      let c := s.getD k 0
      if c.val ≥ RuneSelf then Sum.inr (k + 1)
      else if asciiSpace c = false then Sum.inl (k + 1)
      else trimSpaceStop s start k
    else Sum.inl (k + 1)

/-- `bytes.TrimSpace(s)`: the ASCII loops from both ends, and `TrimFunc` with
`unicode.IsSpace` on what is left as soon as a byte that is not ASCII is met.
(A `nil` result is the empty sequence.) -/
def TrimSpace (White_Space : Nat → Bool) (s : GoString) : GoString :=
  match trimSpaceStart s s.length 0 with
  | Sum.inr start => TrimFunc (s.drop start) (IsSpace White_Space)
  | Sum.inl start =>
    match trimSpaceStop s start s.length with
    | Sum.inr stop => TrimFunc ((s.take stop).drop start) (IsSpace White_Space)
    | Sum.inl stop => if start = stop then [] else (s.take stop).drop start

/-- The `%s` verbs of `fmt.Sprintf`, for a format that holds no other verb and
operands that are strings or byte slices: the bytes of the format are copied,
and each `%s` is replaced by the next operand, unchanged; a `%s` with no operand
left prints `%!s(MISSING)`.  (The mark that Go prints for operands left over is
not reproduced; the source gives as many operands as verbs.) -/
def Sprintf : GoString → List GoString → GoString
  | 37 :: 115 :: format, a :: operands => a ++ Sprintf format operands
  | 37 :: 115 :: format, [] => lit "%!s(MISSING)" ++ Sprintf format []
  | c :: format, operands => c :: Sprintf format operands
  | [], _ => []

/-- The method `Error` (tool.go, lines 50-57): the string that it returns, and
the receiver after the call.  The method assigns to no field of the receiver,
and `bytes.TrimSpace` returns a part of the slice it is given without writing
to it.  `White_Space` is the table `unicode.White_Space` of the Go release. -/
def CommandError.Error (White_Space : Nat → Bool) (e : CommandError) :
    GoString × CommandError :=
  (Sprintf (lit "error executing: %s:\n%s\n%s")
    [e.fullCommand, e.err, TrimSpace White_Space e.out], e)

/-- The table `unicode.White_Space` beyond Latin-1, as of Unicode 6.3 and later. -/
def unicodeWhiteSpace (r : Nat) : Bool :=
  r = 0x1680 || (0x2000 ≤ r && r ≤ 0x200A) || r = 0x2028 || r = 0x2029 || r = 0x202F
    || r = 0x205F || r = 0x3000

/-! ## What the specification says, in its own words -/

/-- The decimal rendering of a natural number: its base-10 digits, the most
significant first, as ASCII digits; `"0"` for zero. -/
def decimal (n : Nat) : GoString :=
  if n = 0 then [48] else (Nat.digits 10 n).reverse.map (fun d => Fin.ofNat (48 + d))

/-- The argument vector as the specification lists it: the subcommand, then
what each field contributes, in the fixed order, then the import paths. -/
def specArgs (o : Options) (c : GoString) : List GoString :=
  [c]
    ++ (if o.Output ≠ [] then [lit "-o", o.Output] else [])
    ++ (if o.ForceAll then [lit "-a"] else [])
    ++ (if o.Parallel ≠ 0 then [lit "-p", decimal o.Parallel] else [])
    ++ (if o.Compiler ≠ [] then [lit "-compiler", o.Compiler] else [])
    ++ (if o.GccGoFlags ≠ [] then [lit "-gccgoflags", o.GccGoFlags] else [])
    ++ (if o.GcFlags ≠ [] then [lit "-gcflags", o.GcFlags] else [])
    ++ (if o.LdFlags ≠ [] then [lit "-ldflags", o.LdFlags] else [])
    ++ (if o.Tags ≠ [] then [lit "-tags", o.Tags] else [])
    ++ (if o.Verbose then [lit "-v"] else [])
    ++ o.ImportPaths

/-- The affected list as the specification describes it: the standard-error
bytes split on the newline byte, the empty segments discarded. -/
def specAffected (e : GoString) : List GoString :=
  (e.splitOn newline).filter (fun seg => seg ≠ [])

/-- The standard error that consists of the given lines, each followed by a
newline. -/
def joinLines (lines : List GoString) : GoString :=
  (lines.map (fun l => l ++ [newline])).flatten

/-- The UTF-8 encoding of the code point `r`. -/
def utf8Encode (r : Nat) : GoString :=
  if r < 0x80 then [Fin.ofNat r]
  else if r < 0x800 then [Fin.ofNat (0xC0 + r / 64), Fin.ofNat (0x80 + r % 64)]
  else if r < 0x10000 then
    [Fin.ofNat (0xE0 + r / 4096), Fin.ofNat (0x80 + r / 64 % 64), Fin.ofNat (0x80 + r % 64)]
  else
    [Fin.ofNat (0xF0 + r / 262144), Fin.ofNat (0x80 + r / 4096 % 64),
      Fin.ofNat (0x80 + r / 64 % 64), Fin.ofNat (0x80 + r % 64)]

/-- The code points that UTF-8 encodes: those up to U+10FFFF that are no
surrogates. -/
def validRune (r : Nat) : Prop :=
  r < 0xD800 ∨ (0xE000 ≤ r ∧ r < 0x110000)

/-- The encoding of a white-space code point. -/
def IsSpaceCode (White_Space : Nat → Bool) (w : GoString) : Prop :=
  ∃ r : Nat, validRune r ∧ IsSpace White_Space r = true ∧ w = utf8Encode r

/-- White space: a sequence of encodings of white-space code points. -/
inductive SpaceRun (White_Space : Nat → Bool) : GoString → Prop where
  | nil : SpaceRun White_Space []
  | cons (w rest : GoString) : IsSpaceCode White_Space w → SpaceRun White_Space rest →
      SpaceRun White_Space (w ++ rest)

/-! ## Concrete environments and values -/

/-- A world in which the lookup finds `/usr/bin/go` and every subprocess
succeeds, writing `out` to standard output and `err` to standard error. -/
def worldOk (out err : GoString) : World :=
  ⟨⟨lit "/usr/bin/go", none⟩, fun _ _ => ⟨out, err, none⟩⟩

/-- A world in which the lookup finds `/usr/bin/go` and every subprocess fails
with `exit status 1`, having written `out` and `err`. -/
def worldFail (out err : GoString) : World :=
  ⟨⟨lit "/usr/bin/go", none⟩, fun _ _ => ⟨out, err, some (lit "exit status 1")⟩⟩

/-- A world in which the lookup fails and no path is returned. -/
def worldNoGo : World :=
  ⟨⟨[], some (lit "executable file not found in $PATH")⟩,
    fun _ _ => ⟨[], [], none⟩⟩

/-- The state of a process that has not called `goBin` yet. -/
def procInit : Proc := ⟨[], 0, []⟩

/-- An `Options` value with import paths `a` and `b` and nothing else set. -/
def optsAB : Options :=
  { GoBin := [], ImportPaths := [lit "a", lit "b"], Output := [], ForceAll := false,
    Parallel := 0, Compiler := [], GccGoFlags := [], GcFlags := [], LdFlags := [],
    Tags := [], Verbose := false }

/-- An `Options` value with `Output = "x"`, `ForceAll` and `Parallel = 4`. -/
def optsX4 : Options :=
  { GoBin := [], ImportPaths := [lit "a", lit "b"], Output := lit "x", ForceAll := true,
    Parallel := 4, Compiler := [], GccGoFlags := [], GcFlags := [], LdFlags := [],
    Tags := [], Verbose := false }

/-- A `CommandError` of a failed `go build x`: the standard output is
`out put` between a no-break space with a tab and an ideographic space with a
line end, the standard error is `boom` with a line end. -/
def errSample : CommandError :=
  ⟨lit "/usr/bin/go build x", [0xC2, 0xA0, 0x09] ++ lit "out put" ++ [0xE3, 0x80, 0x80, 0x0A],
    lit "boom\n"⟩

/-! ## Lemmas on the library functions -/

theorem decimal_of_lt_ten (u : Nat) (h : u < 10) : decimal u = [Fin.ofNat (48 + u)] := by
  unfold decimal
  by_cases h0 : u = 0
  · subst h0; rfl
  · rw [if_neg h0, Nat.digits_of_lt 10 u h0 h]; rfl

theorem decimal_of_ten_le (u : Nat) (h : 10 ≤ u) :
    decimal u = decimal (u / 10) ++ [Fin.ofNat (48 + u % 10)] := by
  have h0 : u ≠ 0 := by omega
  have h1 : u / 10 ≠ 0 := by omega
  unfold decimal
  rw [if_neg h0, if_neg h1]
  conv_lhs => rw [Nat.digits_def' (by norm_num : 1 < 10) (by omega : 0 < u)]
  simp

theorem fmtUintLoop_eq (k : Nat) : ∀ (u : Nat) (buf : GoString), u < k →
    fmtUintLoop k u buf = decimal u ++ buf := by
  induction k with
  | zero => intro u buf h; omega
  | succ k ih =>
    intro u buf h
    unfold fmtUintLoop
    by_cases h10 : 10 ≤ u
    · rw [if_pos h10, ih (u / 10) _ (by omega), decimal_of_ten_le u h10]
      simp
    · rw [if_neg h10, decimal_of_lt_ten u (by omega)]
      rfl

/-- The digit loop of `fmt` yields the decimal rendering. -/
theorem fmtUint_eq_decimal (u : Nat) : fmtUint u = decimal u := by
  unfold fmtUint
  rw [fmtUintLoop_eq (u + 1) u [] (by omega)]
  simp

theorem foldl_append_singleton (ps : List GoString) : ∀ (args : List GoString),
    ps.foldl (fun args importPath => args ++ [importPath]) args = args ++ ps := by
  induction ps with
  | nil => intro args; simp
  | cons p ps ih => intro args; simp [ih]

/-- The vector built by the successive `append`s is the one the specification
lists. -/
theorem args_eq_specArgs (o : Options) (c : GoString) : o.args c = specArgs o c := by
  have key : ∀ (p : Prop) [Decidable p] (a x : List GoString),
      (if p then a ++ x else a) = a ++ (if p then x else []) := by
    intro p _ a x
    split_ifs <;> simp
  unfold Options.args specArgs
  simp only [foldl_append_singleton, fmtUint_eq_decimal, key]

theorem countByte_le_length (c : Byte) : ∀ s : GoString, countByte s c ≤ s.length := by
  intro s
  induction s with
  | nil => simp [countByte]
  | cons b s ih =>
    unfold countByte
    split_ifs <;> simp <;> omega

theorem splitOn_of_indexByte_none (c : Byte) : ∀ s : GoString, indexByte s c = none →
    s.splitOn c = [s] ∧ countByte s c = 0 := by
  intro s
  induction s with
  | nil => intro _; simp [countByte, List.splitOn]
  | cons b s ih =>
    intro h
    unfold indexByte at h
    by_cases hb : b = c
    · simp [hb] at h
    · rw [if_neg hb] at h
      have hs : indexByte s c = none := by
        cases hi : indexByte s c with
        | none => rfl
        | some i => simp [hi] at h
      obtain ⟨h1, h2⟩ := ih hs
      refine ⟨?_, ?_⟩
      · unfold List.splitOn at h1 ⊢
        rw [List.splitOnP_cons, h1]
        simp [hb]
      · unfold countByte
        rw [if_neg hb, h2]

theorem splitOn_of_indexByte_some (c : Byte) : ∀ (s : GoString) (m : Nat),
    indexByte s c = some m →
    s.splitOn c = s.take m :: (s.drop (m + 1)).splitOn c ∧
      countByte s c = countByte (s.drop (m + 1)) c + 1 := by
  intro s
  induction s with
  | nil => intro m h; simp [indexByte] at h
  | cons b s ih =>
    intro m h
    unfold indexByte at h
    by_cases hb : b = c
    · rw [if_pos hb] at h
      have hm : m = 0 := by simpa using h.symm
      subst hm
      refine ⟨?_, ?_⟩
      · unfold List.splitOn
        rw [List.splitOnP_cons]
        simp [hb]
      · rw [show countByte (b :: s) c = (if b = c then 1 else 0) + countByte s c from rfl]
        simp [hb]; omega
    · rw [if_neg hb] at h
      cases hi : indexByte s c with
      | none => simp [hi] at h
      | some i =>
        have hm : m = i + 1 := by simpa [hi] using h.symm
        subst hm
        obtain ⟨h1, h2⟩ := ih i hi
        refine ⟨?_, ?_⟩
        · unfold List.splitOn at h1 ⊢
          rw [List.splitOnP_cons, h1]
          simp [hb]
        · rw [show countByte (b :: s) c = (if b = c then 1 else 0) + countByte s c from rfl,
            if_neg hb]
          simpa using h2

theorem genSplitLoop_eq_splitOn (c : Byte) : ∀ (n : Nat) (s : GoString),
    countByte s c ≤ n → genSplitLoop c n s = s.splitOn c := by
  intro n
  induction n with
  | zero =>
    intro s h
    unfold genSplitLoop
    cases hi : indexByte s c with
    | none => exact (splitOn_of_indexByte_none c s hi).1.symm
    | some m => have := (splitOn_of_indexByte_some c s m hi).2; omega
  | succ n ih =>
    intro s h
    unfold genSplitLoop
    cases hi : indexByte s c with
    | none => exact (splitOn_of_indexByte_none c s hi).1.symm
    | some m =>
      obtain ⟨h1, h2⟩ := splitOn_of_indexByte_some c s m hi
      simp only
      rw [ih _ (by omega), h1]

/-- The model of `bytes.Split` yields the pieces between the separators. -/
theorem bytesSplit_eq_splitOn (s : GoString) (c : Byte) : bytesSplit s c = s.splitOn c := by
  unfold bytesSplit
  have h := countByte_le_length c s
  simp only
  rw [if_neg (by omega)]
  exact genSplitLoop_eq_splitOn c _ s (by omega)

theorem affectedLoop_eq_filter : ∀ (pieces affected : List GoString),
    affectedLoop pieces affected = affected ++ pieces.filter (fun seg => seg ≠ []) := by
  intro pieces
  induction pieces with
  | nil => intro affected; simp [affectedLoop]
  | cons x xs ih =>
    intro affected
    unfold affectedLoop
    by_cases hx : x = []
    · simp [hx, ih]
    · have hl : ¬ x.length = 0 := by simpa using hx
      rw [if_neg hl, ih]
      simp [hx]

/-- The split followed by the loop is the list of the specification. -/
theorem affectedLoop_bytesSplit (e : GoString) :
    affectedLoop (bytesSplit e newline) [] = specAffected e := by
  rw [affectedLoop_eq_filter, bytesSplit_eq_splitOn]
  rfl

theorem foldl_sep_eq (sep : GoString) : ∀ (rest : List GoString) (a : GoString),
    rest.foldl (fun b s => b ++ sep ++ s) a = a ++ (rest.map (fun s => sep ++ s)).flatten := by
  intro rest
  induction rest with
  | nil => intro a; simp
  | cons x xs ih => intro a; rw [List.foldl_cons, ih]; simp

theorem intercalate_cons_eq (sep : GoString) : ∀ (rest : List GoString) (a : GoString),
    sep.intercalate (a :: rest) = a ++ (rest.map (fun s => sep ++ s)).flatten := by
  intro rest
  induction rest with
  | nil => intro a; simp [List.intercalate]
  | cons x xs ih =>
    intro a
    have h := ih x
    simp only [List.intercalate, List.intersperse, List.flatten_cons, List.map_cons] at h ⊢
    rw [h, List.append_assoc]

/-- The model of `strings.Join` puts the separator between the elements. -/
theorem stringsJoin_eq_intercalate (sep : GoString) : ∀ elems : List GoString,
    stringsJoin elems sep = sep.intercalate elems := by
  intro elems
  match elems with
  | [] => simp [stringsJoin, List.intercalate]
  | [a] => simp [stringsJoin, List.intercalate]
  | a :: b :: rest =>
    show List.foldl (fun b s => b ++ sep ++ s) a (b :: rest) = _
    rw [foldl_sep_eq, intercalate_cons_eq]

/-! ## The state of the cache across calls of `goBin` -/

theorem goBin_of_explicit (x : GoString) (look : LookPathResult) (s : Proc) (hx : x ≠ []) :
    goBin x look s = ((x, none), s) := by
  unfold goBin
  rw [if_pos hx]

theorem goBin_of_cached (look : LookPathResult) (s : Proc) (hs : s.goBinFallback ≠ []) :
    goBin [] look s = ((s.goBinFallback, none), s) := by
  unfold goBin
  rw [if_neg (by simp), if_pos hs]

theorem goBin_keeps_cache (x : GoString) (look : LookPathResult) (s : Proc)
    (hs : s.goBinFallback ≠ []) : (goBin x look s).2 = s := by
  unfold goBin
  by_cases hx : x ≠ []
  · rw [if_pos hx]
  · rw [if_neg hx, if_pos hs]

theorem goBinCalls_keeps_cache : ∀ (calls : List (GoString × LookPathResult)) (s : Proc),
    s.goBinFallback ≠ [] → goBinCalls calls s = s := by
  intro calls
  induction calls with
  | nil => intro s _; rfl
  | cons call rest ih =>
    intro s hs
    obtain ⟨x, look⟩ := call
    show goBinCalls rest (goBin x look s).2 = s
    rw [goBin_keeps_cache x look s hs]
    exact ih s hs

theorem goBinCalls_append : ∀ (calls1 calls2 : List (GoString × LookPathResult)) (s : Proc),
    goBinCalls (calls1 ++ calls2) s = goBinCalls calls2 (goBinCalls calls1 s) := by
  intro calls1
  induction calls1 with
  | nil => intro calls2 s; rfl
  | cons call rest ih =>
    intro calls2 s
    obtain ⟨x, look⟩ := call
    show goBinCalls (rest ++ calls2) (goBin x look s).2 = _
    rw [ih]
    rfl

/-! ## The claims -/

/-- C1: for every `Options` value and every subcommand, the argument vector that
`Options.Command` builds is the subcommand, then `-o` and the output path if it
is non-empty, `-a` if `ForceAll`, `-p` and the decimal rendering of `Parallel` if
it is not 0, `-compiler`, `-gccgoflags`, `-gcflags`, `-ldflags`, `-tags` each with
its value if that is non-empty, `-v` if `Verbose`, then the import paths in the
order given; and this is the vector with which the subprocess is run whenever the
executable resolves (no subprocess is run otherwise). -/
theorem command_args_fixed_order (o : Options) (c : GoString) (w : World) (s : Proc) :
    o.args c =
        [c]
          ++ (if o.Output ≠ [] then [lit "-o", o.Output] else [])
          ++ (if o.ForceAll then [lit "-a"] else [])
          ++ (if o.Parallel ≠ 0 then [lit "-p", decimal o.Parallel] else [])
          ++ (if o.Compiler ≠ [] then [lit "-compiler", o.Compiler] else [])
          ++ (if o.GccGoFlags ≠ [] then [lit "-gccgoflags", o.GccGoFlags] else [])
          ++ (if o.GcFlags ≠ [] then [lit "-gcflags", o.GcFlags] else [])
          ++ (if o.LdFlags ≠ [] then [lit "-ldflags", o.LdFlags] else [])
          ++ (if o.Tags ≠ [] then [lit "-tags", o.Tags] else [])
          ++ (if o.Verbose then [lit "-v"] else [])
          ++ o.ImportPaths
      ∧ (o.Command c w s).2.runs =
          match (goBin o.GoBin w.lookPath s).1 with
          | (bin, none) => s.runs ++ [(bin, specArgs o c)]
          | (_, some _) => s.runs := by
  refine ⟨args_eq_specArgs o c, ?_⟩
  have hruns : (goBin o.GoBin w.lookPath s).2.runs = s.runs := by
    unfold goBin
    split_ifs
    · rfl
    · rfl
    · cases w.lookPath.err <;> rfl
  unfold Options.Command
  rw [← args_eq_specArgs]
  rcases hg : goBin o.GoBin w.lookPath s with ⟨⟨bin, e⟩, s1⟩
  rw [hg] at hruns
  cases e with
  | some err => simpa using hruns
  | none =>
    simp only
    cases (w.run bin (o.args c)).err <;> simpa using hruns

/-- C2: when the executable resolves to `bin` and the run of the subprocess
reports no error, `Options.Command` returns a nil error and the captured
standard-error bytes `e` split on the newline byte with every empty segment
discarded, in the original order, whatever was captured from standard output;
for `"pkg/a\npkg/b\n\n"` this list is `["pkg/a", "pkg/b"]` and for empty `e` it
is empty. -/
theorem command_success_affected (o : Options) (c : GoString) (w : World) (s s1 : Proc)
    (bin e : GoString)
    (hbin : goBin o.GoBin w.lookPath s = ((bin, none), s1))
    (hrun : (w.run bin (o.args c)).err = none)
    (he : (w.run bin (o.args c)).stderr = e) :
    (o.Command c w s).1 = ⟨some (specAffected e), none⟩
      ∧ specAffected (lit "pkg/a\npkg/b\n\n") = [lit "pkg/a", lit "pkg/b"]
      ∧ specAffected [] = [] := by
  refine ⟨?_, by decide, by decide⟩
  unfold Options.Command
  rw [hbin]
  simp only [hrun, he, affectedLoop_bytesSplit]

/-- C2 at `optsAB`, the subcommand `install` and the standard error
`"pkg/a\npkg/b\n\n"`, with `"noise"` on standard output. -/
theorem command_success_affected_witness :
    goBin optsAB.GoBin (worldOk (lit "noise") (lit "pkg/a\npkg/b\n\n")).lookPath procInit
        = ((lit "/usr/bin/go", none), ⟨lit "/usr/bin/go", 1, []⟩)
      ∧ ((worldOk (lit "noise") (lit "pkg/a\npkg/b\n\n")).run (lit "/usr/bin/go")
          (optsAB.args (lit "install"))).err = none
      ∧ ((worldOk (lit "noise") (lit "pkg/a\npkg/b\n\n")).run (lit "/usr/bin/go")
          (optsAB.args (lit "install"))).stderr = lit "pkg/a\npkg/b\n\n"
      ∧ ((optsAB.Command (lit "install")
            (worldOk (lit "noise") (lit "pkg/a\npkg/b\n\n")) procInit).1
          = ⟨some (specAffected (lit "pkg/a\npkg/b\n\n")), none⟩
        ∧ specAffected (lit "pkg/a\npkg/b\n\n") = [lit "pkg/a", lit "pkg/b"]
        ∧ specAffected [] = []) :=
  ⟨by decide, rfl, rfl,
    command_success_affected optsAB (lit "install")
      (worldOk (lit "noise") (lit "pkg/a\npkg/b\n\n")) procInit
      ⟨lit "/usr/bin/go", 1, []⟩ (lit "/usr/bin/go") (lit "pkg/a\npkg/b\n\n")
      (by decide) rfl rfl⟩

/-- C3: when the executable resolves to `bin` and the run of the subprocess
reports an error, having written `so` to standard output and `se` to standard
error, `Options.Command` returns a nil affected list and a `*CommandError`
whose `fullCommand` is `bin`, one space, and the argument vector joined by
single spaces, whose `StdOut()` is `so` and whose `StdErr()` is `se`. -/
theorem command_failure_error (o : Options) (c : GoString) (w : World) (s s1 : Proc)
    (bin so se : GoString)
    (hbin : goBin o.GoBin w.lookPath s = ((bin, none), s1))
    (hrun : (w.run bin (o.args c)).err ≠ none)
    (hso : (w.run bin (o.args c)).stdout = so)
    (hse : (w.run bin (o.args c)).stderr = se) :
    ∃ ce : CommandError,
      (o.Command c w s).1 = ⟨none, some (GoError.commandError ce)⟩
        ∧ ce.fullCommand = bin ++ lit " " ++ (lit " ").intercalate (specArgs o c)
        ∧ ce.StdOut = so ∧ ce.StdErr = se := by
  refine ⟨⟨bin ++ lit " " ++ stringsJoin (o.args c) (lit " "), so, se⟩, ?_, ?_, rfl, rfl⟩
  · unfold Options.Command
    rw [hbin]
    cases herr : (w.run bin (o.args c)).err with
    | none => exact absurd herr hrun
    | some x => simp only [herr, hso, hse]
  · rw [stringsJoin_eq_intercalate, args_eq_specArgs]

/-- C3 at `optsX4`, the subcommand `build`, and a subprocess that fails having
written `" out \n"` and `"boom\n"`. -/
theorem command_failure_error_witness :
    goBin optsX4.GoBin (worldFail (lit " out \n") (lit "boom\n")).lookPath procInit
        = ((lit "/usr/bin/go", none), ⟨lit "/usr/bin/go", 1, []⟩)
      ∧ ((worldFail (lit " out \n") (lit "boom\n")).run (lit "/usr/bin/go")
          (optsX4.args (lit "build"))).err ≠ none
      ∧ ∃ ce : CommandError,
          (optsX4.Command (lit "build") (worldFail (lit " out \n") (lit "boom\n")) procInit).1
              = ⟨none, some (GoError.commandError ce)⟩
            ∧ ce.fullCommand
              = lit "/usr/bin/go" ++ lit " " ++ (lit " ").intercalate (specArgs optsX4 (lit "build"))
            ∧ ce.StdOut = lit " out \n" ∧ ce.StdErr = lit "boom\n" :=
  ⟨by decide, by decide,
    command_failure_error optsX4 (lit "build") (worldFail (lit " out \n") (lit "boom\n"))
      procInit ⟨lit "/usr/bin/go", 1, []⟩ (lit "/usr/bin/go") (lit " out \n") (lit "boom\n")
      (by decide) (by decide) rfl rfl⟩

/-- C4: `Options.Command` returns a `*CommandError` exactly when the executable
was resolved and the run of the subprocess reported an error; whenever the
returned error is not nil the affected list is nil, whatever the subprocess
wrote; when the executable was resolved and the run reported no error the
returned error is nil; and no outcome has both a non-nil affected list and a
non-nil error. -/
theorem command_error_outcomes (o : Options) (c : GoString) (w : World) (s : Proc) :
    ((∃ ce : CommandError, (o.Command c w s).1.err = some (GoError.commandError ce))
        ↔ ∃ bin : GoString, (goBin o.GoBin w.lookPath s).1 = (bin, none)
            ∧ (w.run bin (o.args c)).err ≠ none)
      ∧ ((o.Command c w s).1.err ≠ none → (o.Command c w s).1.affected = none)
      ∧ ((∃ bin : GoString, (goBin o.GoBin w.lookPath s).1 = (bin, none)
            ∧ (w.run bin (o.args c)).err = none) → (o.Command c w s).1.err = none)
      ∧ ¬ ((o.Command c w s).1.affected ≠ none ∧ (o.Command c w s).1.err ≠ none) := by
  have hg : ∀ (bin : GoString) (e : GoError) (s1 : Proc),
      goBin o.GoBin w.lookPath s = ((bin, some e), s1) → ∃ msg, e = GoError.errorf msg := by
    intro bin e s1 h
    unfold goBin at h
    split_ifs at h
    · simp at h
    · simp at h
    · cases hl : w.lookPath.err with
      | none => simp [hl] at h
      | some t =>
        simp only [hl, Prod.mk.injEq, Option.some.injEq] at h
        exact ⟨_, h.1.2.symm⟩
  unfold Options.Command
  rcases hgb : goBin o.GoBin w.lookPath s with ⟨⟨bin, e⟩, s1⟩
  cases e with
  | some err =>
    obtain ⟨msg, hmsg⟩ := hg bin err s1 hgb
    subst hmsg
    simp
  | none =>
    cases hr : (w.run bin (o.args c)).err with
    | none => simp [hr]
    | some t => simp [hr]

/-- C4 at `optsX4`, the subcommand `build` and a failing subprocess: a
`*CommandError` is returned and the affected list is nil. -/
theorem command_error_outcomes_witness :
    (optsX4.Command (lit "build") (worldFail (lit "built") (lit "boom\n")) procInit).1.err ≠ none
      ∧ (optsX4.Command (lit "build") (worldFail (lit "built") (lit "boom\n")) procInit).1.affected
          = none :=
  ⟨by decide,
    (command_error_outcomes optsX4 (lit "build") (worldFail (lit "built") (lit "boom\n"))
      procInit).2.1 (by decide)⟩

/-- C5: for a non-empty `explicit`, whatever the cache holds and whatever the
lookup would return, `goBin` returns `explicit` itself with a nil error, makes no
lookup and leaves `goBinFallback` as it was. -/
theorem goBin_explicit_verbatim (x : GoString) (look : LookPathResult) (s : Proc)
    (hx : x ≠ []) :
    (goBin x look s).1 = (x, none)
      ∧ (goBin x look s).2.lookups = s.lookups
      ∧ (goBin x look s).2.goBinFallback = s.goBinFallback
      ∧ (goBin x look s).2 = s := by
  rw [goBin_of_explicit x look s hx]
  exact ⟨rfl, rfl, rfl, rfl⟩

/-- C5 at the override `/opt/go/bin/go`, with a cache that holds `/usr/bin/go`
and a lookup that would fail. -/
theorem goBin_explicit_verbatim_witness :
    lit "/opt/go/bin/go" ≠ []
      ∧ (goBin (lit "/opt/go/bin/go") worldNoGo.lookPath ⟨lit "/usr/bin/go", 1, []⟩).1
          = (lit "/opt/go/bin/go", none)
      ∧ (goBin (lit "/opt/go/bin/go") worldNoGo.lookPath ⟨lit "/usr/bin/go", 1, []⟩).2.lookups = 1
      ∧ (goBin (lit "/opt/go/bin/go") worldNoGo.lookPath
          ⟨lit "/usr/bin/go", 1, []⟩).2.goBinFallback = lit "/usr/bin/go"
      ∧ (goBin (lit "/opt/go/bin/go") worldNoGo.lookPath ⟨lit "/usr/bin/go", 1, []⟩).2
          = ⟨lit "/usr/bin/go", 1, []⟩ :=
  ⟨by decide,
    goBin_explicit_verbatim (lit "/opt/go/bin/go") worldNoGo.lookPath ⟨lit "/usr/bin/go", 1, []⟩
      (by decide)⟩

/-- C6: once a call `goBin("")` has made the lookup and the lookup succeeded with
the path `p` (a path that was found, hence not empty), then after any further
`goBin` calls every call `goBin("")` returns `p` with a nil error and makes no
lookup, whatever the lookup would return now. -/
theorem goBin_cached_after_success (s : Proc) (look look2 : LookPathResult) (p : GoString)
    (between : List (GoString × LookPathResult))
    (hlook : (goBin [] look s).2.lookups = s.lookups + 1)
    (hok : look.err = none) (hp : look.path = p) (hne : p ≠ []) :
    (goBin [] look2 (goBinCalls between (goBin [] look s).2)).1 = (p, none)
      ∧ (goBin [] look2 (goBinCalls between (goBin [] look s).2)).2.lookups
          = (goBin [] look s).2.lookups
      ∧ (goBin [] look2 (goBinCalls between (goBin [] look s).2)).2.goBinFallback = p := by
  have hs : s.goBinFallback = [] := by
    by_contra hc
    rw [goBin_of_cached look s hc] at hlook
    simp at hlook
  have h1 : (goBin [] look s).2 = ⟨p, s.lookups + 1, s.runs⟩ := by
    unfold goBin
    simp [hs, hok, hp]
  have hc : (⟨p, s.lookups + 1, s.runs⟩ : Proc).goBinFallback ≠ [] := hne
  rw [h1, goBinCalls_keeps_cache between _ hc, goBin_of_cached look2 _ hc]
  exact ⟨rfl, rfl, rfl⟩

/-- C6 at a first lookup that finds `/usr/bin/go`, followed by a call with an
override and a call without, and then a call at which the lookup would fail. -/
theorem goBin_cached_after_success_witness :
    (goBin [] (worldOk [] []).lookPath procInit).2.lookups = procInit.lookups + 1
      ∧ (worldOk [] []).lookPath.err = none
      ∧ (worldOk [] []).lookPath.path = lit "/usr/bin/go"
      ∧ lit "/usr/bin/go" ≠ []
      ∧ (goBin [] worldNoGo.lookPath
            (goBinCalls [(lit "/opt/go", worldNoGo.lookPath), ([], ⟨lit "/snap/go", none⟩)]
              (goBin [] (worldOk [] []).lookPath procInit).2)).1 = (lit "/usr/bin/go", none)
      ∧ (goBin [] worldNoGo.lookPath
            (goBinCalls [(lit "/opt/go", worldNoGo.lookPath), ([], ⟨lit "/snap/go", none⟩)]
              (goBin [] (worldOk [] []).lookPath procInit).2)).2.lookups
          = (goBin [] (worldOk [] []).lookPath procInit).2.lookups
      ∧ (goBin [] worldNoGo.lookPath
            (goBinCalls [(lit "/opt/go", worldNoGo.lookPath), ([], ⟨lit "/snap/go", none⟩)]
              (goBin [] (worldOk [] []).lookPath procInit).2)).2.goBinFallback
          = lit "/usr/bin/go" :=
  ⟨by decide, rfl, rfl, by decide,
    goBin_cached_after_success procInit (worldOk [] []).lookPath worldNoGo.lookPath
      (lit "/usr/bin/go") [(lit "/opt/go", worldNoGo.lookPath), ([], ⟨lit "/snap/go", none⟩)]
      (by decide) rfl rfl (by decide)⟩

/-- C7: with no override, an unset cache and a lookup that fails with an error of
text `E`, `goBin` returns the empty path and an error whose message is
`"Error finding go binary: "` followed by `E`; `Options.Command` then returns a
nil affected list and that same error, which is not a `*CommandError`, and runs
no subprocess. -/
theorem command_discovery_failure (o : Options) (c : GoString) (w : World) (s : Proc)
    (E : GoString)
    (hx : o.GoBin = []) (hs : s.goBinFallback = []) (hE : w.lookPath.err = some E) :
    (goBin o.GoBin w.lookPath s).1
        = ([], some (GoError.errorf (lit "Error finding go binary: " ++ E)))
      ∧ (o.Command c w s).1
          = ⟨none, some (GoError.errorf (lit "Error finding go binary: " ++ E))⟩
      ∧ (∀ ce : CommandError, (o.Command c w s).1.err ≠ some (GoError.commandError ce))
      ∧ (o.Command c w s).2.runs = s.runs := by
  have hg : goBin o.GoBin w.lookPath s
      = (([], some (GoError.errorf (lit "Error finding go binary: " ++ E))),
          ⟨w.lookPath.path, s.lookups + 1, s.runs⟩) := by
    unfold goBin
    simp [hx, hs, hE]
  have hc : o.Command c w s
      = (⟨none, some (GoError.errorf (lit "Error finding go binary: " ++ E))⟩,
          ⟨w.lookPath.path, s.lookups + 1, s.runs⟩) := by
    unfold Options.Command
    rw [hg]
  rw [hg, hc]
  exact ⟨rfl, rfl, by intro ce; simp, rfl⟩

/-- C7 at `optsAB`, the subcommand `build`, a fresh process and a lookup that
fails. -/
theorem command_discovery_failure_witness :
    optsAB.GoBin = [] ∧ procInit.goBinFallback = []
      ∧ worldNoGo.lookPath.err = some (lit "executable file not found in $PATH")
      ∧ (goBin optsAB.GoBin worldNoGo.lookPath procInit).1
          = ([], some (GoError.errorf
              (lit "Error finding go binary: " ++ lit "executable file not found in $PATH")))
      ∧ (optsAB.Command (lit "build") worldNoGo procInit).1
          = ⟨none, some (GoError.errorf
              (lit "Error finding go binary: " ++ lit "executable file not found in $PATH"))⟩
      ∧ (∀ ce : CommandError,
          (optsAB.Command (lit "build") worldNoGo procInit).1.err
            ≠ some (GoError.commandError ce))
      ∧ (optsAB.Command (lit "build") worldNoGo procInit).2.runs = procInit.runs :=
  ⟨rfl, rfl, rfl,
    command_discovery_failure optsAB (lit "build") worldNoGo procInit
      (lit "executable file not found in $PATH") rfl rfl rfl⟩

/-- C8: over every sequence of `goBin` calls, with arbitrary arguments and
arbitrary answers of the lookup, once `goBinFallback` holds a non-empty value no
later call changes it (nor makes a lookup). -/
theorem goBinFallback_never_refreshed (calls1 calls2 : List (GoString × LookPathResult))
    (s0 : Proc) (h : (goBinCalls calls1 s0).goBinFallback ≠ []) :
    (goBinCalls (calls1 ++ calls2) s0).goBinFallback = (goBinCalls calls1 s0).goBinFallback
      ∧ (goBinCalls (calls1 ++ calls2) s0).lookups = (goBinCalls calls1 s0).lookups := by
  rw [goBinCalls_append, goBinCalls_keeps_cache calls2 _ h]
  exact ⟨rfl, rfl⟩

/-- C8 at a process that first fails to find `go`, then finds `/usr/bin/go`, and
afterwards is offered `/snap/go` by the lookup. -/
theorem goBinFallback_never_refreshed_witness :
    (goBinCalls [([], worldNoGo.lookPath), ([], ⟨lit "/usr/bin/go", none⟩)]
        procInit).goBinFallback ≠ []
      ∧ (goBinCalls ([([], worldNoGo.lookPath), ([], ⟨lit "/usr/bin/go", none⟩)]
            ++ [([], ⟨lit "/snap/go", none⟩), (lit "/opt/go", worldNoGo.lookPath),
                ([], worldNoGo.lookPath)]) procInit).goBinFallback
          = (goBinCalls [([], worldNoGo.lookPath), ([], ⟨lit "/usr/bin/go", none⟩)]
              procInit).goBinFallback
      ∧ (goBinCalls ([([], worldNoGo.lookPath), ([], ⟨lit "/usr/bin/go", none⟩)]
            ++ [([], ⟨lit "/snap/go", none⟩), (lit "/opt/go", worldNoGo.lookPath),
                ([], worldNoGo.lookPath)]) procInit).lookups
          = (goBinCalls [([], worldNoGo.lookPath), ([], ⟨lit "/usr/bin/go", none⟩)]
              procInit).lookups :=
  ⟨by decide,
    goBinFallback_never_refreshed [([], worldNoGo.lookPath), ([], ⟨lit "/usr/bin/go", none⟩)]
      [([], ⟨lit "/snap/go", none⟩), (lit "/opt/go", worldNoGo.lookPath),
        ([], worldNoGo.lookPath)] procInit (by decide)⟩

/-- C9: for every subcommand `c` and every list `ps` of import paths, an
`Options` value whose `Output`, `Compiler`, `GccGoFlags`, `GcFlags`, `LdFlags` and
`Tags` are empty, whose `Parallel` is 0 and whose `ForceAll` and `Verbose` are
false yields the argument vector `c` followed by `ps`; for `ps = ["a", "b"]` it
is `[c, "a", "b"]`. -/
theorem args_of_zero_options (g c : GoString) (ps : List GoString) :
    ({ GoBin := g, ImportPaths := ps, Output := [], ForceAll := false, Parallel := 0,
        Compiler := [], GccGoFlags := [], GcFlags := [], LdFlags := [], Tags := [],
        Verbose := false } : Options).args c = c :: ps
      ∧ ({ GoBin := g, ImportPaths := [lit "a", lit "b"], Output := [], ForceAll := false,
            Parallel := 0, Compiler := [], GccGoFlags := [], GcFlags := [], LdFlags := [],
            Tags := [], Verbose := false } : Options).args c = [c, lit "a", lit "b"] := by
  constructor <;> rw [args_eq_specArgs] <;> simp [specArgs]

/-- C10: for every `Options` value with a non-empty `Output`, `ForceAll` set and
`Parallel` not 0, the argument vector is the subcommand, immediately followed by
`-o`, the output path, `-a`, `-p` and the decimal rendering of `Parallel`, in
this order, and the import paths come after them, at the end of the vector. -/
theorem args_output_force_parallel (o : Options) (c : GoString)
    (hx : o.Output ≠ []) (ha : o.ForceAll = true) (hn : o.Parallel ≠ 0) :
    ∃ rest : List GoString,
      o.args c
          = c :: lit "-o" :: o.Output :: lit "-a" :: lit "-p" :: decimal o.Parallel :: rest
        ∧ o.ImportPaths <:+ rest := by
  rw [args_eq_specArgs]
  unfold specArgs
  rw [if_pos hx, if_pos ha, if_pos hn]
  refine ⟨_, by
    simp only [List.append_assoc, List.cons_append, List.nil_append, List.singleton_append]
    rfl, ?_⟩
  exact (((((List.suffix_append _ _).trans (List.suffix_append _ _)).trans
    (List.suffix_append _ _)).trans (List.suffix_append _ _)).trans
    (List.suffix_append _ _)).trans (List.suffix_append _ _)

/-- C10 at `Output = "x"`, `ForceAll = true`, `Parallel = 4` and the subcommand
`build`: the vector starts `build -o x -a -p 4`. -/
theorem args_output_force_parallel_witness :
    optsX4.Output ≠ [] ∧ optsX4.ForceAll = true ∧ optsX4.Parallel ≠ 0
      ∧ decimal optsX4.Parallel = lit "4" ∧ optsX4.Output = lit "x"
      ∧ ∃ rest : List GoString,
          optsX4.args (lit "build")
              = lit "build" :: lit "-o" :: optsX4.Output :: lit "-a" :: lit "-p"
                  :: decimal optsX4.Parallel :: rest
            ∧ optsX4.ImportPaths <:+ rest :=
  ⟨by decide, rfl, by decide, by rw [← fmtUint_eq_decimal]; decide, rfl,
    args_output_force_parallel optsX4 (lit "build") (by decide) rfl (by decide)⟩

/-! ## Lemmas on the pieces of a split -/

theorem splitOn_joinLines : ∀ lines : List GoString, (∀ l ∈ lines, newline ∉ l) →
    (joinLines lines).splitOn newline = lines ++ [[]] := by
  intro lines
  induction lines with
  | nil => intro _; rfl
  | cons l rest ih =>
    intro h
    have hl : ∀ x ∈ l, ¬ ((fun b => b == newline) x = true) := by
      intro x hx hxe
      have : x = newline := by simpa using hxe
      exact h l (List.mem_cons_self _ _) (this ▸ hx)
    have hrest := ih (fun l' hl' => h l' (List.mem_cons_of_mem _ hl'))
    have hj : joinLines (l :: rest) = l ++ newline :: joinLines rest := by
      simp [joinLines]
    rw [hj]
    unfold List.splitOn at hrest ⊢
    rw [List.splitOnP_first _ _ hl newline (by simp), hrest]
    rfl

theorem splitOn_length (c : Byte) : ∀ s : GoString,
    (s.splitOn c).length = s.count c + 1 := by
  intro s
  induction s with
  | nil => rfl
  | cons x xs ih =>
    unfold List.splitOn at ih ⊢
    rw [List.splitOnP_cons]
    by_cases hx : x = c
    · subst hx
      simp [ih]
    · have hc : ¬ ((x == c) = true) := by simpa using hx
      rw [if_neg hc, List.count_cons_of_ne (Ne.symm hx)]
      cases hsp : List.splitOnP (fun b => b == c) xs with
      | nil => exact absurd hsp (List.splitOnP_ne_nil _ _)
      | cons y ys => rw [hsp] at ih; simpa using ih

theorem not_mem_of_mem_splitOn (c : Byte) : ∀ (s seg : GoString),
    seg ∈ s.splitOn c → c ∉ seg := by
  intro s
  induction s with
  | nil =>
    intro seg h
    have : seg = [] := by simpa using h
    subst this
    simp
  | cons x xs ih =>
    intro seg h
    unfold List.splitOn at ih h
    rw [List.splitOnP_cons] at h
    by_cases hx : x = c
    · subst hx
      simp only [beq_self_eq_true, if_true, List.mem_cons] at h
      rcases h with h | h
      · subst h; simp
      · exact ih seg h
    · have hc : ¬ ((x == c) = true) := by simpa using hx
      rw [if_neg hc] at h
      cases hsp : List.splitOnP (fun b => b == c) xs with
      | nil => exact absurd hsp (List.splitOnP_ne_nil _ _)
      | cons y ys =>
        rw [hsp] at h ih
        simp only [List.modifyHead_cons, List.mem_cons] at h
        rcases h with h | h
        · subst h
          have hy := ih y (List.mem_cons_self _ _)
          intro hmem
          rcases List.mem_cons.mp hmem with hh | hh
          · exact hx hh.symm
          · exact hy hh
        · exact ih seg (List.mem_cons_of_mem _ h)

/-! ## The claims, continued -/

/-- C11: the argument vector is a function of the subcommand and of the fields
`Output`, `ForceAll`, `Parallel`, `Compiler`, `GccGoFlags`, `GcFlags`, `LdFlags`,
`Tags`, `Verbose` and `ImportPaths` alone: two `Options` values that agree on
these build the same vector, and the vectors with which two invocations run
their subprocess are the same whatever the `GoBin` fields, the states of the
cache, the earlier runs and the environments are. -/
theorem command_args_pure (o1 o2 : Options) (c : GoString) (w1 w2 : World) (s1 s2 : Proc)
    (hOutput : o1.Output = o2.Output) (hForceAll : o1.ForceAll = o2.ForceAll)
    (hParallel : o1.Parallel = o2.Parallel) (hCompiler : o1.Compiler = o2.Compiler)
    (hGccGoFlags : o1.GccGoFlags = o2.GccGoFlags) (hGcFlags : o1.GcFlags = o2.GcFlags)
    (hLdFlags : o1.LdFlags = o2.LdFlags) (hTags : o1.Tags = o2.Tags)
    (hVerbose : o1.Verbose = o2.Verbose) (hImportPaths : o1.ImportPaths = o2.ImportPaths) :
    o1.args c = o2.args c
      ∧ ∀ (bin1 bin2 : GoString) (t1 t2 : Proc),
          goBin o1.GoBin w1.lookPath s1 = ((bin1, none), t1) →
          goBin o2.GoBin w2.lookPath s2 = ((bin2, none), t2) →
          ∃ args : List GoString,
            (o1.Command c w1 s1).2.runs = t1.runs ++ [(bin1, args)]
              ∧ (o2.Command c w2 s2).2.runs = t2.runs ++ [(bin2, args)] := by
  have hargs : o1.args c = o2.args c := by
    unfold Options.args
    rw [hOutput, hForceAll, hParallel, hCompiler, hGccGoFlags, hGcFlags, hLdFlags, hTags,
      hVerbose, hImportPaths]
  refine ⟨hargs, ?_⟩
  intro bin1 bin2 t1 t2 h1 h2
  refine ⟨o1.args c, ?_, ?_⟩
  · unfold Options.Command
    rw [h1]
    simp only
    cases (w1.run bin1 (o1.args c)).err <;> rfl
  · unfold Options.Command
    rw [h2, ← hargs]
    simp only
    cases (w2.run bin2 (o1.args c)).err <;> rfl

/-- C11 at `optsX4` and the same value with `GoBin` set to `/opt/go/bin/go`, in
two different environments and states of the cache. -/
theorem command_args_pure_witness :
    optsX4.args (lit "build") = ({ optsX4 with GoBin := lit "/opt/go/bin/go" }).args (lit "build")
      ∧ ∀ (bin1 bin2 : GoString) (t1 t2 : Proc),
          goBin optsX4.GoBin (worldOk [] []).lookPath procInit = ((bin1, none), t1) →
          goBin ({ optsX4 with GoBin := lit "/opt/go/bin/go" }).GoBin
              (worldFail (lit "x") (lit "y")).lookPath ⟨lit "/snap/go", 3, []⟩
            = ((bin2, none), t2) →
          ∃ args : List GoString,
            (optsX4.Command (lit "build") (worldOk [] []) procInit).2.runs
                = t1.runs ++ [(bin1, args)]
              ∧ (({ optsX4 with GoBin := lit "/opt/go/bin/go" }).Command (lit "build")
                    (worldFail (lit "x") (lit "y")) ⟨lit "/snap/go", 3, []⟩).2.runs
                  = t2.runs ++ [(bin2, args)] :=
  command_args_pure optsX4 { optsX4 with GoBin := lit "/opt/go/bin/go" } (lit "build")
    (worldOk [] []) (worldFail (lit "x") (lit "y")) procInit ⟨lit "/snap/go", 3, []⟩
    rfl rfl rfl rfl rfl rfl rfl rfl rfl rfl

/-- C12: for every list `L` of strings that are non-empty and hold no newline,
when the subprocess succeeds and its standard error consists of lines, each
followed by a newline, that are the elements of `L` in order with any number of
empty lines put anywhere among them, `Options.Command` returns exactly `L`, each
element byte for byte. -/
theorem command_parses_joined_lines (o : Options) (c : GoString) (w : World) (s s1 : Proc)
    (bin : GoString) (L lines : List GoString)
    (hL : ∀ x ∈ L, x ≠ [] ∧ newline ∉ x)
    (hlines : lines.filter (fun l => l ≠ []) = L)
    (hbin : goBin o.GoBin w.lookPath s = ((bin, none), s1))
    (hrun : (w.run bin (o.args c)).err = none)
    (he : (w.run bin (o.args c)).stderr = joinLines lines) :
    (o.Command c w s).1 = ⟨some L, none⟩ := by
  have hno : ∀ l ∈ lines, newline ∉ l := by
    intro l hl
    by_cases hnil : l = []
    · subst hnil; simp
    · have : l ∈ L := by
        rw [← hlines]
        exact List.mem_filter.mpr ⟨hl, by simpa using hnil⟩
      exact (hL l this).2
  unfold Options.Command
  rw [hbin]
  simp only [hrun, he, affectedLoop_bytesSplit]
  unfold specAffected
  rw [splitOn_joinLines lines hno, List.filter_append, hlines]
  simp

/-- C12 at the lines ` pkg/a ` followed by a carriage return, and `b`, with
empty lines before, between and after them. -/
theorem command_parses_joined_lines_witness :
    (∀ x ∈ [lit " pkg/a \r", lit "b"], x ≠ [] ∧ newline ∉ x)
      ∧ [[], lit " pkg/a \r", [], [], lit "b", []].filter (fun l => l ≠ [])
          = [lit " pkg/a \r", lit "b"]
      ∧ (optsAB.Command (lit "install")
            (worldOk [] (joinLines [[], lit " pkg/a \r", [], [], lit "b", []])) procInit).1
          = ⟨some [lit " pkg/a \r", lit "b"], none⟩ :=
  ⟨by decide, by decide,
    command_parses_joined_lines optsAB (lit "install")
      (worldOk [] (joinLines [[], lit " pkg/a \r", [], [], lit "b", []])) procInit
      ⟨lit "/usr/bin/go", 1, []⟩ (lit "/usr/bin/go") [lit " pkg/a \r", lit "b"]
      [[], lit " pkg/a \r", [], [], lit "b", []] (by decide) (by decide) (by decide) rfl rfl⟩

/-- C13: for every captured standard error `e`, the affected list returned on
success has only elements that are non-empty and hold no newline, and it has at
most one element more than `e` has newline bytes. -/
theorem command_affected_elements (o : Options) (c : GoString) (w : World) (s s1 : Proc)
    (bin e : GoString)
    (hbin : goBin o.GoBin w.lookPath s = ((bin, none), s1))
    (hrun : (w.run bin (o.args c)).err = none)
    (he : (w.run bin (o.args c)).stderr = e) :
    ∃ L : List GoString,
      (o.Command c w s).1 = ⟨some L, none⟩
        ∧ (∀ x ∈ L, x ≠ [] ∧ newline ∉ x)
        ∧ L.length ≤ e.count newline + 1 := by
  refine ⟨specAffected e, ?_, ?_, ?_⟩
  · unfold Options.Command
    rw [hbin]
    simp only [hrun, he, affectedLoop_bytesSplit]
  · intro x hx
    unfold specAffected at hx
    obtain ⟨hmem, hne⟩ := List.mem_filter.mp hx
    exact ⟨by simpa using hne, not_mem_of_mem_splitOn newline e x hmem⟩
  · unfold specAffected
    calc ((e.splitOn newline).filter (fun seg => seg ≠ [])).length
        ≤ (e.splitOn newline).length := List.length_filter_le _ _
      _ = e.count newline + 1 := splitOn_length newline e

/-- C13 at the standard error `"a\n\nb"`, which has two newline bytes and yields
two elements. -/
theorem command_affected_elements_witness :
    goBin optsAB.GoBin (worldOk [] (lit "a\n\nb")).lookPath procInit
        = ((lit "/usr/bin/go", none), ⟨lit "/usr/bin/go", 1, []⟩)
      ∧ ∃ L : List GoString,
          (optsAB.Command (lit "install") (worldOk [] (lit "a\n\nb")) procInit).1
              = ⟨some L, none⟩
            ∧ (∀ x ∈ L, x ≠ [] ∧ newline ∉ x)
            ∧ L.length ≤ (lit "a\n\nb").count newline + 1 :=
  ⟨by decide,
    command_affected_elements optsAB (lit "install") (worldOk [] (lit "a\n\nb")) procInit
      ⟨lit "/usr/bin/go", 1, []⟩ (lit "/usr/bin/go") (lit "a\n\nb") (by decide) rfl rfl⟩

/-- C15: when `goBin("")` runs with an unset cache and the lookup fails, the
cache is assigned the path that the lookup returned; if that path is empty the
cache stays unset, and the next `goBin("")` makes the lookup again: it returns
the path of that lookup with a nil error if the lookup now succeeds, and the
wrapped error of that lookup if it fails again. -/
theorem goBin_failure_not_remembered (s : Proc) (look look2 : LookPathResult)
    (hs : s.goBinFallback = []) (hE : look.err ≠ none) :
    (goBin [] look s).2.goBinFallback = look.path
      ∧ (goBin [] look s).2.lookups = s.lookups + 1
      ∧ (look.path = [] →
          (goBin [] look s).2.goBinFallback = []
            ∧ (goBin [] look2 (goBin [] look s).2).2.lookups = (goBin [] look s).2.lookups + 1
            ∧ (look2.err = none →
                (goBin [] look2 (goBin [] look s).2).1 = (look2.path, none))
            ∧ (∀ E2 : GoString, look2.err = some E2 →
                (goBin [] look2 (goBin [] look s).2).1
                  = ([], some (GoError.errorf (lit "Error finding go binary: " ++ E2))))) := by
  obtain ⟨E, hEq⟩ : ∃ E, look.err = some E := by
    cases h : look.err with
    | none => exact absurd h hE
    | some E => exact ⟨E, rfl⟩
  have h1 : (goBin [] look s).2 = ⟨look.path, s.lookups + 1, s.runs⟩ := by
    unfold goBin
    simp [hs, hEq]
  rw [h1]
  refine ⟨rfl, rfl, ?_⟩
  intro hp
  rw [hp]
  refine ⟨rfl, ?_, ?_, ?_⟩
  · unfold goBin
    cases look2.err <;> simp
  · intro h2
    unfold goBin
    simp [h2]
  · intro E2 h2
    unfold goBin
    simp [h2]

/-- C15 at a fresh process whose first lookup fails without a path and whose
second lookup finds `/usr/bin/go`. -/
theorem goBin_failure_not_remembered_witness :
    procInit.goBinFallback = [] ∧ worldNoGo.lookPath.err ≠ none
      ∧ worldNoGo.lookPath.path = [] ∧ (worldOk [] []).lookPath.err = none
      ∧ (goBin [] worldNoGo.lookPath procInit).2.goBinFallback = []
      ∧ (goBin [] (worldOk [] []).lookPath (goBin [] worldNoGo.lookPath procInit).2).2.lookups
          = (goBin [] worldNoGo.lookPath procInit).2.lookups + 1
      ∧ (goBin [] (worldOk [] []).lookPath (goBin [] worldNoGo.lookPath procInit).2).1
          = ((worldOk [] []).lookPath.path, none) :=
  ⟨rfl, by decide, rfl, rfl,
    ((goBin_failure_not_remembered procInit worldNoGo.lookPath (worldOk [] []).lookPath rfl
      (by decide)).2.2 rfl).1,
    ((goBin_failure_not_remembered procInit worldNoGo.lookPath (worldOk [] []).lookPath rfl
      (by decide)).2.2 rfl).2.1,
    ((goBin_failure_not_remembered procInit worldNoGo.lookPath (worldOk [] []).lookPath rfl
      (by decide)).2.2 rfl).2.2.1 rfl⟩

/-! ## UTF-8: decoding undoes encoding -/

theorem fin_ofNat_val (x : Nat) (h : x < 256) : (Fin.ofNat x : Byte).val = x := by
  show x % 256 = x
  omega

theorem fin_ofNat_self (b : Byte) : (Fin.ofNat b.val : Byte) = b := by
  apply Fin.ext
  rw [fin_ofNat_val b.val b.isLt]

theorem byte_eq_ofNat (b : Byte) (x : Nat) (h : b.val = x) : b = Fin.ofNat x := by
  rw [← h, fin_ofNat_self]

/-- What `DecodeRune` yields is an invalid mark, or a code point together with
its encoding at the front of the input. -/
theorem decodeRune_cases (p : GoString) :
    (p = [] ∧ DecodeRune p = (RuneError, 0)) ∨ DecodeRune p = (RuneError, 1)
      ∨ ∃ r : Nat, validRune r ∧ utf8Encode r <+: p
          ∧ DecodeRune p = (r, (utf8Encode r).length) := by
  cases p with
  | nil => exact Or.inl ⟨rfl, rfl⟩
  | cons p0 t =>
    have hp0 := p0.isLt
    simp only [DecodeRune]
    by_cases c1 : p0.val < 0x80
    · rw [if_pos c1]
      refine Or.inr (Or.inr ⟨p0.val, Or.inl (by omega), ?_, ?_⟩)
      · simp only [utf8Encode, if_pos c1, fin_ofNat_self]
        exact ⟨t, rfl⟩
      · simp only [utf8Encode, if_pos c1, List.length_singleton]
    rw [if_neg c1]
    by_cases c2 : p0.val < 0xC2 ∨ 0xF4 < p0.val
    · rw [if_pos c2]; exact Or.inr (Or.inl rfl)
    rw [if_neg c2]
    by_cases c3 : (p0 :: t).length < firstSize p0.val
    · rw [if_pos c3]; exact Or.inr (Or.inl rfl)
    rw [if_neg c3]
    have hsz : 2 ≤ firstSize p0.val := by unfold firstSize; split_ifs <;> omega
    cases t with
    | nil => simp only [List.length_singleton] at c3; omega
    | cons b1 t1 =>
      have hb1 := b1.isLt
      simp only [List.getD_cons_zero]
      by_cases c4 : b1.val < acceptLo p0.val ∨ acceptHi p0.val < b1.val
      · rw [if_pos c4]; exact Or.inr (Or.inl rfl)
      rw [if_neg c4]
      have hlo : 0x80 ≤ acceptLo p0.val := by unfold acceptLo; split_ifs <;> omega
      have hhi : acceptHi p0.val ≤ 0xBF := by unfold acceptHi; split_ifs <;> omega
      by_cases c5 : firstSize p0.val ≤ 2
      · rw [if_pos c5]
        have h224 : p0.val < 0xE0 := by
          unfold firstSize at c5; split_ifs at c5 <;> omega
        have hr1 : ¬ (p0.val % 32 * 64 + b1.val % 64 < 0x80) := by omega
        have hr2 : p0.val % 32 * 64 + b1.val % 64 < 0x800 := by omega
        have henc : utf8Encode (p0.val % 32 * 64 + b1.val % 64) = [p0, b1] := by
          simp only [utf8Encode, if_neg hr1, if_pos hr2]
          rw [← byte_eq_ofNat p0 _ (by omega), ← byte_eq_ofNat b1 _ (by omega)]
        refine Or.inr (Or.inr ⟨p0.val % 32 * 64 + b1.val % 64, Or.inl (by omega), ?_, ?_⟩)
        · rw [henc]; exact ⟨t1, rfl⟩
        · rw [henc]; rfl
      rw [if_neg c5]
      have h224 : 0xE0 ≤ p0.val := by
        unfold firstSize at c5; split_ifs at c5 <;> omega
      cases t1 with
      | nil =>
        exfalso
        unfold firstSize at c3
        simp only [List.length_cons, List.length_nil] at c3
        split_ifs at c3 <;> omega
      | cons b2 t2 =>
        have hb2 := b2.isLt
        simp only [List.getD_cons_succ, List.getD_cons_zero]
        by_cases c6 : b2.val < 0x80 ∨ 0xBF < b2.val
        · rw [if_pos c6]; exact Or.inr (Or.inl rfl)
        rw [if_neg c6]
        by_cases c7 : firstSize p0.val ≤ 3
        · rw [if_pos c7]
          have h240 : p0.val < 0xF0 := by
            unfold firstSize at c7; split_ifs at c7 <;> omega
          have hlo2 : p0.val = 0xE0 → 0xA0 ≤ b1.val := by
            intro h; unfold acceptLo at c4; rw [if_pos h] at c4; omega
          have hhi2 : p0.val = 0xED → b1.val ≤ 0x9F := by
            intro h; unfold acceptHi at c4; rw [if_pos h] at c4; omega
          have hr1 : ¬ (p0.val % 16 * 4096 + b1.val % 64 * 64 + b2.val % 64 < 0x80) := by omega
          have hr2 : ¬ (p0.val % 16 * 4096 + b1.val % 64 * 64 + b2.val % 64 < 0x800) := by
            omega
          have hr3 : p0.val % 16 * 4096 + b1.val % 64 * 64 + b2.val % 64 < 0x10000 := by omega
          have henc : utf8Encode (p0.val % 16 * 4096 + b1.val % 64 * 64 + b2.val % 64)
              = [p0, b1, b2] := by
            simp only [utf8Encode, if_neg hr1, if_neg hr2, if_pos hr3]
            rw [← byte_eq_ofNat p0 _ (by omega), ← byte_eq_ofNat b1 _ (by omega),
              ← byte_eq_ofNat b2 _ (by omega)]
          refine Or.inr (Or.inr ⟨p0.val % 16 * 4096 + b1.val % 64 * 64 + b2.val % 64, ?_, ?_, ?_⟩)
          · unfold validRune; omega
          · rw [henc]; exact ⟨t2, rfl⟩
          · rw [henc]; rfl
        rw [if_neg c7]
        have h240 : 0xF0 ≤ p0.val := by
          unfold firstSize at c7; split_ifs at c7 <;> omega
        cases t2 with
        | nil =>
          exfalso
          unfold firstSize at c3
          simp only [List.length_cons, List.length_nil] at c3
          split_ifs at c3 <;> omega
        | cons b3 t3 =>
          have hb3 := b3.isLt
          simp only [List.getD_cons_succ, List.getD_cons_zero]
          by_cases c8 : b3.val < 0x80 ∨ 0xBF < b3.val
          · rw [if_pos c8]; exact Or.inr (Or.inl rfl)
          rw [if_neg c8]
          have hlo2 : p0.val = 0xF0 → 0x90 ≤ b1.val := by
            intro h; unfold acceptLo at c4
            rw [if_neg (by omega), if_pos h] at c4; omega
          have hhi2 : p0.val = 0xF4 → b1.val ≤ 0x8F := by
            intro h; unfold acceptHi at c4
            rw [if_neg (by omega), if_pos h] at c4; omega
          have hr1 : ¬ (p0.val % 8 * 262144 + b1.val % 64 * 4096 + b2.val % 64 * 64
              + b3.val % 64 < 0x80) := by omega
          have hr2 : ¬ (p0.val % 8 * 262144 + b1.val % 64 * 4096 + b2.val % 64 * 64
              + b3.val % 64 < 0x800) := by omega
          have hr3 : ¬ (p0.val % 8 * 262144 + b1.val % 64 * 4096 + b2.val % 64 * 64
              + b3.val % 64 < 0x10000) := by omega
          have henc : utf8Encode (p0.val % 8 * 262144 + b1.val % 64 * 4096 + b2.val % 64 * 64
              + b3.val % 64) = [p0, b1, b2, b3] := by
            simp only [utf8Encode, if_neg hr1, if_neg hr2, if_neg hr3]
            rw [← byte_eq_ofNat p0 _ (by omega), ← byte_eq_ofNat b1 _ (by omega),
              ← byte_eq_ofNat b2 _ (by omega), ← byte_eq_ofNat b3 _ (by omega)]
          refine Or.inr (Or.inr ⟨p0.val % 8 * 262144 + b1.val % 64 * 4096 + b2.val % 64 * 64
              + b3.val % 64, ?_, ?_, ?_⟩)
          · unfold validRune; omega
          · rw [henc]; exact ⟨t3, rfl⟩
          · rw [henc]; rfl

theorem decodeRune_ascii (p0 : Byte) (t : GoString) (h : p0.val < 0x80) :
    DecodeRune (p0 :: t) = (p0.val, 1) := by
  simp only [DecodeRune]
  rw [if_pos h]

theorem decodeRune_two (p0 b1 : Byte) (t : GoString) (h0 : 0xC2 ≤ p0.val) (h0' : p0.val < 0xE0)
    (h1 : 0x80 ≤ b1.val) (h1' : b1.val ≤ 0xBF) :
    DecodeRune (p0 :: b1 :: t) = (p0.val % 32 * 64 + b1.val % 64, 2) := by
  have e1 : ¬ (p0.val < 128) := by omega
  have e2 : ¬ (p0.val < 194 ∨ 244 < p0.val) := by omega
  have e3 : firstSize p0.val = 2 := by unfold firstSize; rw [if_pos h0']
  have e4 : acceptLo p0.val = 0x80 := by
    unfold acceptLo; rw [if_neg (by omega), if_neg (by omega)]
  have e5 : acceptHi p0.val = 0xBF := by
    unfold acceptHi; rw [if_neg (by omega), if_neg (by omega)]
  have e6 : ¬ (b1.val < 128 ∨ 191 < b1.val) := by omega
  have e7 : ¬ (t.length + 1 + 1 < 2) := by omega
  simp only [DecodeRune, List.length_cons, List.getD_cons_zero, e1, e2, e3, e4, e5, e6, e7,
    if_true, if_false, le_refl]

theorem decodeRune_three (p0 b1 b2 : Byte) (t : GoString)
    (h0 : 0xE0 ≤ p0.val) (h0' : p0.val < 0xF0)
    (h1 : acceptLo p0.val ≤ b1.val) (h1' : b1.val ≤ acceptHi p0.val)
    (h2 : 0x80 ≤ b2.val) (h2' : b2.val ≤ 0xBF) :
    DecodeRune (p0 :: b1 :: b2 :: t)
      = (p0.val % 16 * 4096 + b1.val % 64 * 64 + b2.val % 64, 3) := by
  have e1 : ¬ (p0.val < 128) := by omega
  have e2 : ¬ (p0.val < 194 ∨ 244 < p0.val) := by omega
  have e3 : firstSize p0.val = 3 := by
    unfold firstSize; rw [if_neg (by omega), if_pos h0']
  have e4 : ¬ (b1.val < acceptLo p0.val ∨ acceptHi p0.val < b1.val) := by omega
  have e6 : ¬ (b2.val < 128 ∨ 191 < b2.val) := by omega
  have e7 : ¬ (t.length + 1 + 1 + 1 < 3) := by omega
  have e8 : ¬ ((3 : Nat) ≤ 2) := by omega
  simp only [DecodeRune, List.length_cons, List.getD_cons_zero, List.getD_cons_succ, e1, e2, e3,
    e4, e6, e7, e8, if_true, if_false, le_refl]

theorem decodeRune_four (p0 b1 b2 b3 : Byte) (t : GoString)
    (h0 : 0xF0 ≤ p0.val) (h0' : p0.val ≤ 0xF4)
    (h1 : acceptLo p0.val ≤ b1.val) (h1' : b1.val ≤ acceptHi p0.val)
    (h2 : 0x80 ≤ b2.val) (h2' : b2.val ≤ 0xBF) (h3 : 0x80 ≤ b3.val) (h3' : b3.val ≤ 0xBF) :
    DecodeRune (p0 :: b1 :: b2 :: b3 :: t)
      = (p0.val % 8 * 262144 + b1.val % 64 * 4096 + b2.val % 64 * 64 + b3.val % 64, 4) := by
  have e1 : ¬ (p0.val < 128) := by omega
  have e2 : ¬ (p0.val < 194 ∨ 244 < p0.val) := by omega
  have e3 : firstSize p0.val = 4 := by
    unfold firstSize; rw [if_neg (by omega), if_neg (by omega)]
  have e4 : ¬ (b1.val < acceptLo p0.val ∨ acceptHi p0.val < b1.val) := by omega
  have e6 : ¬ (b2.val < 128 ∨ 191 < b2.val) := by omega
  have e6' : ¬ (b3.val < 128 ∨ 191 < b3.val) := by omega
  have e7 : ¬ (t.length + 1 + 1 + 1 + 1 < 4) := by omega
  have e8 : ¬ ((4 : Nat) ≤ 2) := by omega
  have e9 : ¬ ((4 : Nat) ≤ 3) := by omega
  simp only [DecodeRune, List.length_cons, List.getD_cons_zero, List.getD_cons_succ, e1, e2, e3,
    e4, e6, e6', e7, e8, e9, if_true, if_false, le_refl]

/-- Decoding undoes encoding: at the front of any input, the encoding of a
valid code point decodes to that code point and to its own length. -/
theorem decodeRune_utf8Encode (r : Nat) (rest : GoString) (hv : validRune r) :
    DecodeRune (utf8Encode r ++ rest) = (r, (utf8Encode r).length) := by
  unfold validRune at hv
  unfold utf8Encode
  by_cases h1 : r < 0x80
  · rw [if_pos h1]
    simp only [List.singleton_append, List.length_singleton]
    rw [decodeRune_ascii _ _ (by rw [fin_ofNat_val r (by omega)]; exact h1),
      fin_ofNat_val r (by omega)]
  rw [if_neg h1]
  by_cases h2 : r < 0x800
  · rw [if_pos h2]
    have v0 := fin_ofNat_val (0xC0 + r / 64) (by omega)
    have v1 := fin_ofNat_val (0x80 + r % 64) (by omega)
    simp only [List.cons_append, List.nil_append, List.length_cons, List.length_nil]
    rw [decodeRune_two _ _ _ (by omega) (by omega) (by omega) (by omega), v0, v1]
    simp only [Prod.mk.injEq, and_true]
    omega
  rw [if_neg h2]
  by_cases h3 : r < 0x10000
  · rw [if_pos h3]
    have v0 := fin_ofNat_val (0xE0 + r / 4096) (by omega)
    have v1 := fin_ofNat_val (0x80 + r / 64 % 64) (by omega)
    have v2 := fin_ofNat_val (0x80 + r % 64) (by omega)
    have hlo : acceptLo (0xE0 + r / 4096) ≤ 0x80 + r / 64 % 64 := by
      unfold acceptLo; split_ifs <;> omega
    have hhi : 0x80 + r / 64 % 64 ≤ acceptHi (0xE0 + r / 4096) := by
      unfold acceptHi; split_ifs <;> omega
    simp only [List.cons_append, List.nil_append, List.length_cons, List.length_nil]
    rw [decodeRune_three _ _ _ _ (by omega) (by omega) (by rw [v0, v1]; exact hlo)
      (by rw [v0, v1]; exact hhi) (by omega) (by omega), v0, v1, v2]
    simp only [Prod.mk.injEq, and_true]
    omega
  rw [if_neg h3]
  have v0 := fin_ofNat_val (0xF0 + r / 262144) (by omega)
  have v1 := fin_ofNat_val (0x80 + r / 4096 % 64) (by omega)
  have v2 := fin_ofNat_val (0x80 + r / 64 % 64) (by omega)
  have v3 := fin_ofNat_val (0x80 + r % 64) (by omega)
  have hlo : acceptLo (0xF0 + r / 262144) ≤ 0x80 + r / 4096 % 64 := by
    unfold acceptLo; split_ifs <;> omega
  have hhi : 0x80 + r / 4096 % 64 ≤ acceptHi (0xF0 + r / 262144) := by
    unfold acceptHi; split_ifs <;> omega
  simp only [List.cons_append, List.nil_append, List.length_cons, List.length_nil]
  rw [decodeRune_four _ _ _ _ _ (by omega) (by omega) (by rw [v0, v1]; exact hlo)
    (by rw [v0, v1]; exact hhi) (by omega) (by omega) (by omega) (by omega), v0, v1, v2, v3]
  simp only [Prod.mk.injEq, and_true]
  omega

/-- The shape of an encoding: a leading byte, which is ASCII exactly when it
stands alone and then is the code point, and at most three continuation
bytes. -/
theorem utf8Encode_shape (r : Nat) (hv : validRune r) :
    ∃ (h : Byte) (t : GoString), utf8Encode r = h :: t
      ∧ (h.val < 0x80 ∨ 0xC2 ≤ h.val)
      ∧ (h.val < 0x80 → t = [] ∧ h.val = r)
      ∧ (0x80 ≤ h.val → t ≠ [] ∧ 0x80 ≤ r)
      ∧ (∀ c ∈ t, 0x80 ≤ c.val ∧ c.val < 0xC0)
      ∧ t.length ≤ 3 := by
  unfold validRune at hv
  unfold utf8Encode
  by_cases h1 : r < 0x80
  · rw [if_pos h1]
    have v0 := fin_ofNat_val r (by omega)
    refine ⟨_, _, rfl, Or.inl (by omega), fun _ => ⟨rfl, v0⟩, fun h => by omega, ?_, by simp⟩
    intro c hc; simp at hc
  rw [if_neg h1]
  by_cases h2 : r < 0x800
  · rw [if_pos h2]
    have v0 := fin_ofNat_val (0xC0 + r / 64) (by omega)
    have v1 := fin_ofNat_val (0x80 + r % 64) (by omega)
    refine ⟨_, _, rfl, Or.inr (by omega), fun h => by omega,
      fun _ => ⟨by simp, by omega⟩, ?_, by simp⟩
    intro c hc
    simp only [List.mem_singleton] at hc
    subst hc; omega
  rw [if_neg h2]
  by_cases h3 : r < 0x10000
  · rw [if_pos h3]
    have v0 := fin_ofNat_val (0xE0 + r / 4096) (by omega)
    have v1 := fin_ofNat_val (0x80 + r / 64 % 64) (by omega)
    have v2 := fin_ofNat_val (0x80 + r % 64) (by omega)
    refine ⟨_, _, rfl, Or.inr (by omega), fun h => by omega,
      fun _ => ⟨by simp, by omega⟩, ?_, by simp⟩
    intro c hc
    simp only [List.mem_cons, List.mem_singleton, List.not_mem_nil, or_false] at hc
    rcases hc with hc | hc <;> subst hc <;> omega
  rw [if_neg h3]
  have v0 := fin_ofNat_val (0xF0 + r / 262144) (by omega)
  have v1 := fin_ofNat_val (0x80 + r / 4096 % 64) (by omega)
  have v2 := fin_ofNat_val (0x80 + r / 64 % 64) (by omega)
  have v3 := fin_ofNat_val (0x80 + r % 64) (by omega)
  refine ⟨_, _, rfl, Or.inr (by omega), fun h => by omega,
    fun _ => ⟨by simp, by omega⟩, ?_, by simp⟩
  intro c hc
  simp only [List.mem_cons, List.mem_singleton, List.not_mem_nil, or_false] at hc
  rcases hc with hc | hc | hc <;> subst hc <;> omega

theorem getD_drop (l : GoString) (i j : Nat) (d : Byte) :
    (l.drop i).getD j d = l.getD (i + j) d := by
  simp only [List.getD_eq_getElem?_getD, List.getElem?_drop]

theorem getD_take (l : GoString) (i j : Nat) (d : Byte) (h : j < i) :
    (l.take i).getD j d = l.getD j d := by
  simp only [List.getD_eq_getElem?_getD, List.getElem?_take_of_lt h]

theorem eq_take_append_last (p : GoString) (hp : p ≠ []) :
    p = p.take (p.length - 1) ++ [p.getD (p.length - 1) 0] := by
  have hlen : 0 < p.length := List.length_pos.mpr hp
  have h := List.dropLast_append_getLast hp
  rw [List.dropLast_eq_take, List.getLast_eq_getElem] at h
  rw [List.getD_eq_getElem p 0 (by omega)]
  exact h.symm

theorem lastRuneStartLoop_eq (p : GoString) (lim j : Nat) (hlim : lim ≤ j)
    (hj : RuneStart (p.getD j 0) = true) :
    ∀ k0 : Nat, j < k0 → (∀ i, j < i → i < k0 → RuneStart (p.getD i 0) = false) →
      lastRuneStartLoop p lim k0 = j := by
  intro k0
  induction k0 with
  | zero => intro h; omega
  | succ k ih =>
    intro hjk hall
    unfold lastRuneStartLoop
    rw [if_neg (by omega)]
    by_cases hk : RuneStart (p.getD k 0) = true
    · rw [if_pos hk]
      by_contra hne
      have := hall k (by omega) (by omega)
      rw [hk] at this
      exact absurd this (by simp)
    · rw [if_neg hk]
      have hjk2 : j < k := by
        rcases Nat.lt_or_ge j k with h | h
        · exact h
        · have : j = k := by omega
          subst this
          exact absurd hj hk
      exact ih hjk2 (fun i h1 h2 => hall i h1 (by omega))

theorem lastRuneStartLoop_le (p : GoString) (lim : Nat) :
    ∀ k0 : Nat, lastRuneStartLoop p lim k0 ≤ k0 := by
  intro k0
  induction k0 with
  | zero => unfold lastRuneStartLoop; omega
  | succ k ih =>
    unfold lastRuneStartLoop
    split_ifs <;> omega

/-- What `DecodeLastRune` yields is an invalid mark, or a code point together
with its encoding at the end of the input. -/
theorem decodeLastRune_cases (p : GoString) :
    (p = [] ∧ DecodeLastRune p = (RuneError, 0)) ∨ DecodeLastRune p = (RuneError, 1)
      ∨ ∃ r : Nat, validRune r ∧ utf8Encode r <:+ p
          ∧ DecodeLastRune p = (r, (utf8Encode r).length) := by
  unfold DecodeLastRune
  simp only
  by_cases h0 : p.length = 0
  · rw [if_pos h0]; exact Or.inl ⟨List.length_eq_zero.mp h0, rfl⟩
  rw [if_neg h0]
  have hp : p ≠ [] := fun h => h0 (by rw [h]; rfl)
  by_cases h1 : (p.getD (p.length - 1) 0).val < RuneSelf
  · rw [if_pos h1]
    have h1b : (p.getD (p.length - 1) 0).val < 0x80 := h1
    refine Or.inr (Or.inr ⟨(p.getD (p.length - 1) 0).val, Or.inl (by omega), ?_, ?_⟩)
    · simp only [utf8Encode, if_pos h1b, fin_ofNat_self]
      exact ⟨_, (eq_take_append_last p hp).symm⟩
    · simp only [utf8Encode, if_pos h1b, List.length_singleton]
  rw [if_neg h1]
  by_cases h2 : lastRuneStartLoop p (p.length - UTFMax) (p.length - 1)
      + (DecodeRune (p.drop (lastRuneStartLoop p (p.length - UTFMax) (p.length - 1)))).2
      ≠ p.length
  · rw [if_pos h2]; exact Or.inr (Or.inl rfl)
  rw [if_neg h2]
  have h2b := not_not.mp h2
  rcases decodeRune_cases
      (p.drop (lastRuneStartLoop p (p.length - UTFMax) (p.length - 1))) with h | h | h
  · exfalso
    have hl := congrArg List.length h.1
    simp only [List.length_drop, List.length_nil] at hl
    have := lastRuneStartLoop_le p (p.length - UTFMax) (p.length - 1)
    omega
  · exact Or.inr (Or.inl h)
  · obtain ⟨r, hv, hpre, hd⟩ := h
    refine Or.inr (Or.inr ⟨r, hv, ?_, hd⟩)
    rw [hd] at h2b
    simp only at h2b
    obtain ⟨u, hu⟩ := hpre
    have hlen := congrArg List.length hu
    simp only [List.length_append, List.length_drop] at hlen
    have hu0 : u = [] := List.length_eq_zero.mp (by omega)
    rw [hu0, List.append_nil] at hu
    rw [hu]
    exact List.drop_suffix _ _

/-- Decoding from the end undoes encoding: at the end of any input, the
encoding of a valid code point decodes to that code point and to its own
length. -/
theorem decodeLastRune_append_utf8Encode (q : GoString) (r : Nat) (hv : validRune r) :
    DecodeLastRune (q ++ utf8Encode r) = (r, (utf8Encode r).length) := by
  obtain ⟨h, t, henc, hstart, hascii, hmulti, hcont, hlen⟩ := utf8Encode_shape r hv
  have hdec := decodeRune_utf8Encode r [] hv
  rw [List.append_nil] at hdec
  rw [henc] at hdec ⊢
  unfold DecodeLastRune
  simp only [List.length_append, List.length_cons]
  rw [if_neg (by omega)]
  by_cases ha : h.val < 0x80
  · obtain ⟨ht, hr⟩ := hascii ha
    subst ht
    have hlast : (q ++ [h]).getD (q.length + (0 + 1) - 1) 0 = h := by
      rw [List.getD_append_right _ _ _ _ (by simp)]
      simp
    simp only [List.length_nil] at hlast ⊢
    rw [hlast, if_pos (show h.val < RuneSelf from ha), hr]
  · obtain ⟨ht, hr⟩ := hmulti (by omega)
    have hlastmem : (h :: t).getD t.length 0 ∈ t := by
      cases t with
      | nil => exact absurd rfl ht
      | cons c t' =>
        simp only [List.length_cons, List.getD_cons_succ]
        rw [List.getD_eq_getElem (c :: t') 0 (by simp)]
        exact List.getElem_mem _
    have hlast : (q ++ h :: t).getD (q.length + (t.length + 1) - 1) 0
        = (h :: t).getD t.length 0 := by
      rw [List.getD_append_right _ _ _ _ (by omega)]
      congr 1
      omega
    have hc := hcont _ hlastmem
    rw [hlast, if_neg (show ¬ ((h :: t).getD t.length 0).val < RuneSelf by
      unfold RuneSelf; omega)]
    have hloop : lastRuneStartLoop (q ++ h :: t) (q.length + (t.length + 1) - UTFMax)
        (q.length + (t.length + 1) - 1) = q.length := by
      apply lastRuneStartLoop_eq
      · unfold UTFMax; omega
      · rw [List.getD_append_right _ _ _ _ (le_refl _)]
        simp only [Nat.sub_self, List.getD_cons_zero]
        unfold RuneStart
        rcases hstart with hs | hs <;> simp <;> omega
      · have : t.length ≠ 0 := fun h0 => ht (List.length_eq_zero.mp h0)
        omega
      · intro i hi1 hi2
        rw [List.getD_append_right _ _ _ _ (by omega)]
        obtain ⟨k, hk⟩ : ∃ k, i - q.length = k + 1 := ⟨i - q.length - 1, by omega⟩
        rw [hk, List.getD_cons_succ, List.getD_eq_getElem t 0 (by omega)]
        have hc2 := hcont _ (List.getElem_mem (l := t) (n := k) (by omega))
        unfold RuneStart
        simp
        omega
    rw [hloop, List.drop_left, hdec]
    simp only [List.length_cons]
    rw [if_neg (by omega)]

theorem isSpace_runeError (ws : Nat → Bool) (hRE : ws RuneError = false) :
    IsSpace ws RuneError = false := by
  unfold IsSpace
  rw [if_neg (by unfold RuneError; omega)]
  exact hRE

theorem spaceCode_ne_nil (ws : Nat → Bool) (w : GoString) (hw : IsSpaceCode ws w) : w ≠ [] := by
  obtain ⟨r, hv, _, rfl⟩ := hw
  obtain ⟨h, t, henc, _⟩ := utf8Encode_shape r hv
  rw [henc]
  exact List.cons_ne_nil _ _

theorem spaceRun_append (ws : Nat → Bool) (a b : GoString) (ha : SpaceRun ws a)
    (hb : SpaceRun ws b) : SpaceRun ws (a ++ b) := by
  induction ha with
  | nil => exact hb
  | cons w rest hw _ ih =>
    rw [List.append_assoc]
    exact SpaceRun.cons w (rest ++ b) hw ih

theorem spaceRun_single (ws : Nat → Bool) (w : GoString) (hw : IsSpaceCode ws w) :
    SpaceRun ws w := by
  have h := SpaceRun.cons w [] hw SpaceRun.nil
  rwa [List.append_nil] at h

/-- A white-space rune at the front, as `DecodeRune` sees it, is the encoding
of a white-space code point at the front. -/
theorem spaceCode_of_decodeRune (ws : Nat → Bool) (hRE : ws RuneError = false)
    (t : GoString) (hsp : IsSpace ws (DecodeRune t).1 = true) :
    ∃ w : GoString, IsSpaceCode ws w ∧ t = w ++ t.drop (DecodeRune t).2
      ∧ w.length = (DecodeRune t).2 := by
  rcases decodeRune_cases t with h | h | h
  · rw [h.2, isSpace_runeError ws hRE] at hsp
    exact absurd hsp (by simp)
  · rw [h, isSpace_runeError ws hRE] at hsp
    exact absurd hsp (by simp)
  · obtain ⟨r, hv, ⟨u, hu⟩, hd⟩ := h
    rw [hd] at hsp ⊢
    refine ⟨utf8Encode r, ⟨r, hv, hsp, rfl⟩, ?_, rfl⟩
    simp only
    conv_lhs => rw [← hu]
    rw [← hu, List.drop_left]

/-- The encoding of a white-space code point at the front decodes to a
white-space rune. -/
theorem decodeRune_of_spaceCode (ws : Nat → Bool) (w t : GoString)
    (hw : IsSpaceCode ws w) (hpre : w <+: t) : IsSpace ws (DecodeRune t).1 = true := by
  obtain ⟨r, hv, hsp, rfl⟩ := hw
  obtain ⟨u, rfl⟩ := hpre
  rw [decodeRune_utf8Encode r u hv]
  exact hsp

/-- A white-space rune at the end, as `DecodeLastRune` sees it, is the encoding
of a white-space code point at the end. -/
theorem spaceCode_of_decodeLastRune (ws : Nat → Bool) (hRE : ws RuneError = false)
    (t : GoString) (hsp : IsSpace ws (DecodeLastRune t).1 = true) :
    ∃ w : GoString, IsSpaceCode ws w ∧ t = t.take (t.length - (DecodeLastRune t).2) ++ w
      ∧ w.length = (DecodeLastRune t).2 := by
  rcases decodeLastRune_cases t with h | h | h
  · rw [h.2, isSpace_runeError ws hRE] at hsp
    exact absurd hsp (by simp)
  · rw [h, isSpace_runeError ws hRE] at hsp
    exact absurd hsp (by simp)
  · obtain ⟨r, hv, ⟨u, hu⟩, hd⟩ := h
    rw [hd] at hsp ⊢
    refine ⟨utf8Encode r, ⟨r, hv, hsp, rfl⟩, ?_, rfl⟩
    simp only
    conv_lhs => rw [← hu]
    rw [← hu, List.length_append, Nat.add_sub_cancel, List.take_left]

/-- The encoding of a white-space code point at the end decodes, from the end,
to a white-space rune. -/
theorem decodeLastRune_of_spaceCode (ws : Nat → Bool) (w t : GoString)
    (hw : IsSpaceCode ws w) (hsuf : w <:+ t) : IsSpace ws (DecodeLastRune t).1 = true := by
  obtain ⟨r, hv, hsp, rfl⟩ := hw
  obtain ⟨u, rfl⟩ := hsuf
  rw [decodeLastRune_append_utf8Encode u r hv]
  exact hsp

theorem decodeRune_size (t : GoString) (ht : t ≠ []) :
    1 ≤ (DecodeRune t).2 ∧ (DecodeRune t).2 ≤ t.length := by
  have hlen : 0 < t.length := List.length_pos.mpr ht
  rcases decodeRune_cases t with h | h | h
  · exact absurd h.1 ht
  · rw [h]; exact ⟨le_refl _, hlen⟩
  · obtain ⟨r, hv, hpre, hd⟩ := h
    obtain ⟨b, u, henc, _⟩ := utf8Encode_shape r hv
    rw [hd]
    refine ⟨by rw [henc]; simp, hpre.length_le⟩

theorem decodeLastRune_size (t : GoString) (ht : t ≠ []) :
    1 ≤ (DecodeLastRune t).2 ∧ (DecodeLastRune t).2 ≤ t.length := by
  have hlen : 0 < t.length := List.length_pos.mpr ht
  rcases decodeLastRune_cases t with h | h | h
  · exact absurd h.1 ht
  · rw [h]; exact ⟨le_refl _, hlen⟩
  · obtain ⟨r, hv, hsuf, hd⟩ := h
    obtain ⟨b, u, henc, _⟩ := utf8Encode_shape r hv
    rw [hd]
    refine ⟨by rw [henc]; simp, hsuf.length_le⟩

/-- The step of `indexFunc`, which reads an ASCII byte directly, is `DecodeRune`
on what is left of the input. -/
theorem indexFunc_step (s : GoString) (start : Nat) (h : start < s.length) :
    (if (s.getD start 0).val ≥ RuneSelf then DecodeRune (s.drop start)
      else ((s.getD start 0).val, 1)) = DecodeRune (s.drop start) := by
  by_cases hc : (s.getD start 0).val ≥ RuneSelf
  · rw [if_pos hc]
  · rw [if_neg hc]
    have hd : s.drop start = s.getD start 0 :: s.drop (start + 1) := by
      rw [List.getD_eq_getElem s 0 h]
      exact List.drop_eq_getElem_cons h
    rw [hd, decodeRune_ascii _ _ (by unfold RuneSelf at hc; omega)]

/-- The step of `lastIndexFunc`, which reads an ASCII byte directly, is
`DecodeLastRune` on the input up to the index. -/
theorem lastIndexFunc_step (s : GoString) (i : Nat) (h0 : 0 < i) (h : i ≤ s.length) :
    (if (s.getD (i - 1) 0).val ≥ RuneSelf then DecodeLastRune (s.take i)
      else ((s.getD (i - 1) 0).val, 1)) = DecodeLastRune (s.take i) := by
  by_cases hc : (s.getD (i - 1) 0).val ≥ RuneSelf
  · rw [if_pos hc]
  · rw [if_neg hc]
    have hl : (s.take i).length = i := by rw [List.length_take]; omega
    have hg : (s.take i).getD ((s.take i).length - 1) 0 = s.getD (i - 1) 0 := by
      rw [hl, getD_take s i (i - 1) 0 (by omega)]
    unfold DecodeLastRune
    simp only
    rw [if_neg (by omega), hg, if_pos (by omega)]

/-- The loop of `indexFunc` looking for the first rune that is no white space:
what it passes over is white space, and it stops at a rune that is none. -/
theorem indexFuncLoop_spec (ws : Nat → Bool) (hRE : ws RuneError = false) (s : GoString) :
    ∀ (fuel start : Nat), start ≤ s.length → s.length - start ≤ fuel →
      (∃ i, indexFuncLoop s (IsSpace ws) false fuel start = some i ∧ start ≤ i ∧ i < s.length
          ∧ SpaceRun ws ((s.drop start).take (i - start))
          ∧ IsSpace ws (DecodeRune (s.drop i)).1 = false)
        ∨ (indexFuncLoop s (IsSpace ws) false fuel start = none
            ∧ SpaceRun ws (s.drop start)) := by
  intro fuel
  induction fuel with
  | zero =>
    intro start h1 h2
    refine Or.inr ⟨rfl, ?_⟩
    rw [List.drop_eq_nil_of_le (by omega)]
    exact SpaceRun.nil
  | succ fuel ih =>
    intro start h1 h2
    unfold indexFuncLoop
    by_cases hlt : start < s.length
    · rw [if_pos hlt]
      simp only
      rw [indexFunc_step s start hlt]
      by_cases hsp : IsSpace ws (DecodeRune (s.drop start)).1 = false
      · rw [if_pos hsp]
        refine Or.inl ⟨start, rfl, le_refl _, hlt, ?_, hsp⟩
        rw [Nat.sub_self, List.take_zero]
        exact SpaceRun.nil
      · rw [if_neg hsp]
        have hsp2 : IsSpace ws (DecodeRune (s.drop start)).1 = true := by
          simpa using hsp
        have hne : s.drop start ≠ [] := by
          intro h
          have := congrArg List.length h
          simp only [List.length_drop, List.length_nil] at this
          omega
        obtain ⟨hsz1, hsz2⟩ := decodeRune_size (s.drop start) hne
        rw [List.length_drop] at hsz2
        obtain ⟨w, hw, hsplit, hwlen⟩ := spaceCode_of_decodeRune ws hRE (s.drop start) hsp2
        rw [List.drop_drop] at hsplit
        rcases ih (start + (DecodeRune (s.drop start)).2) (by omega) (by omega) with h | h
        · obtain ⟨i, hi, hle, hilt, hrun, hns⟩ := h
          refine Or.inl ⟨i, hi, by omega, hilt, ?_, hns⟩
          rw [hsplit, List.take_append_eq_append_take, List.take_of_length_le (by omega), hwlen]
          have : i - start - (DecodeRune (s.drop start)).2
              = i - (start + (DecodeRune (s.drop start)).2) := by omega
          rw [this]
          exact spaceRun_append ws _ _ (spaceRun_single ws w hw) hrun
        · obtain ⟨hi, hrun⟩ := h
          refine Or.inr ⟨hi, ?_⟩
          rw [hsplit]
          exact spaceRun_append ws _ _ (spaceRun_single ws w hw) hrun
    · rw [if_neg hlt]
      refine Or.inr ⟨rfl, ?_⟩
      rw [List.drop_eq_nil_of_le (by omega)]
      exact SpaceRun.nil

/-- `TrimLeftFunc` with `unicode.IsSpace` takes white space off the front and
leaves nothing that starts with white space. -/
theorem trimLeftFunc_spec (ws : Nat → Bool) (hRE : ws RuneError = false) (s : GoString) :
    ∃ pre : GoString, s = pre ++ TrimLeftFunc s (IsSpace ws) ∧ SpaceRun ws pre
      ∧ ∀ w, IsSpaceCode ws w → ¬ w <+: TrimLeftFunc s (IsSpace ws) := by
  unfold TrimLeftFunc indexFunc
  rcases indexFuncLoop_spec ws hRE s s.length 0 (Nat.zero_le _) (by omega) with h | h
  · obtain ⟨i, hi, _, hilt, hrun, hns⟩ := h
    rw [hi]
    simp only [List.drop_zero, Nat.sub_zero] at hrun
    refine ⟨s.take i, (List.take_append_drop i s).symm, hrun, ?_⟩
    intro w hw hpre
    have := decodeRune_of_spaceCode ws w _ hw hpre
    rw [hns] at this
    exact absurd this (by simp)
  · obtain ⟨hi, hrun⟩ := h
    rw [hi]
    simp only [List.drop_zero] at hrun
    refine ⟨s, by simp, hrun, ?_⟩
    intro w hw hpre
    exact spaceCode_ne_nil ws w hw (List.prefix_nil.mp hpre)

/-- The loop of `lastIndexFunc` looking for the last rune that is no white
space: what it passes over is white space, and it stops below an index `j` at
which the input up to `j` ends with a rune that is none. -/
theorem lastIndexFuncLoop_spec (ws : Nat → Bool) (hRE : ws RuneError = false) (s : GoString) :
    ∀ (fuel i : Nat), i ≤ s.length → i ≤ fuel →
      (∃ j, 0 < j ∧ j ≤ i
          ∧ lastIndexFuncLoop s (IsSpace ws) false fuel i
              = some (j - (DecodeLastRune (s.take j)).2)
          ∧ SpaceRun ws ((s.take i).drop j)
          ∧ IsSpace ws (DecodeLastRune (s.take j)).1 = false)
        ∨ (lastIndexFuncLoop s (IsSpace ws) false fuel i = none
            ∧ SpaceRun ws (s.take i)) := by
  intro fuel
  induction fuel with
  | zero =>
    intro i h1 h2
    refine Or.inr ⟨rfl, ?_⟩
    have : i = 0 := by omega
    rw [this, List.take_zero]
    exact SpaceRun.nil
  | succ fuel ih =>
    intro i h1 h2
    unfold lastIndexFuncLoop
    by_cases hpos : 0 < i
    · rw [if_pos hpos]
      simp only
      rw [lastIndexFunc_step s i hpos h1]
      by_cases hsp : IsSpace ws (DecodeLastRune (s.take i)).1 = false
      · rw [if_pos hsp]
        refine Or.inl ⟨i, hpos, le_refl _, rfl, ?_, hsp⟩
        rw [List.drop_eq_nil_of_le (by rw [List.length_take]; omega)]
        exact SpaceRun.nil
      · rw [if_neg hsp]
        have hsp2 : IsSpace ws (DecodeLastRune (s.take i)).1 = true := by
          simpa using hsp
        have hl : (s.take i).length = i := by rw [List.length_take]; omega
        have hne : s.take i ≠ [] := by
          intro h
          have := congrArg List.length h
          rw [hl] at this
          simp only [List.length_nil] at this
          omega
        obtain ⟨hsz1, hsz2⟩ := decodeLastRune_size (s.take i) hne
        rw [hl] at hsz2
        obtain ⟨w, hw, hsplit, hwlen⟩ := spaceCode_of_decodeLastRune ws hRE (s.take i) hsp2
        rw [hl, List.take_take, Nat.min_eq_left (by omega)] at hsplit
        have hl2 : (s.take (i - (DecodeLastRune (s.take i)).2)).length
            = i - (DecodeLastRune (s.take i)).2 := by
          rw [List.length_take]; omega
        rcases ih (i - (DecodeLastRune (s.take i)).2) (by omega) (by omega) with h | h
        · obtain ⟨j, hj0, hji, hres, hrun, hns⟩ := h
          refine Or.inl ⟨j, hj0, by omega, hres, ?_, hns⟩
          rw [hsplit, List.drop_append_of_le_length (by rw [hl2]; exact hji)]
          exact spaceRun_append ws _ _ hrun (spaceRun_single ws w hw)
        · obtain ⟨hres, hrun⟩ := h
          refine Or.inr ⟨hres, ?_⟩
          rw [hsplit]
          exact spaceRun_append ws _ _ hrun (spaceRun_single ws w hw)
    · rw [if_neg hpos]
      refine Or.inr ⟨rfl, ?_⟩
      have : i = 0 := by omega
      rw [this, List.take_zero]
      exact SpaceRun.nil

/-- In front of white space, a byte that is not ASCII never decodes together
with what follows it: `DecodeRune` takes one byte. -/
theorem decodeRune_before_spaceRun (ws : Nat → Bool) (b : Byte) (post : GoString)
    (hb : 0x80 ≤ b.val) (hpost : SpaceRun ws post) :
    (DecodeRune (b :: post)).2 = 1 := by
  simp only [DecodeRune]
  rw [if_neg (by omega)]
  by_cases c2 : b.val < 0xC2 ∨ 0xF4 < b.val
  · rw [if_pos c2]
  rw [if_neg c2]
  by_cases c3 : (b :: post).length < firstSize b.val
  · rw [if_pos c3]
  rw [if_neg c3]
  have hsz : 2 ≤ firstSize b.val := by unfold firstSize; split_ifs <;> omega
  have hlo : 0x80 ≤ acceptLo b.val := by unfold acceptLo; split_ifs <;> omega
  have hhi : acceptHi b.val ≤ 0xBF := by unfold acceptHi; split_ifs <;> omega
  cases hpost with
  | nil => simp only [List.length_singleton] at c3; omega
  | cons w rest hw hrest =>
    obtain ⟨r, hv, _, rfl⟩ := hw
    obtain ⟨h, t, henc, hstart, _⟩ := utf8Encode_shape r hv
    rw [henc]
    simp only [List.cons_append, List.getD_cons_zero]
    rw [if_pos (by omega)]

/-- `TrimRightFunc` with `unicode.IsSpace` takes white space off the end and
leaves nothing that ends with white space. -/
theorem trimRightFunc_spec (ws : Nat → Bool) (hRE : ws RuneError = false) (s : GoString) :
    ∃ post : GoString, s = TrimRightFunc s (IsSpace ws) ++ post ∧ SpaceRun ws post
      ∧ ∀ w, IsSpaceCode ws w → ¬ w <:+ TrimRightFunc s (IsSpace ws) := by
  unfold TrimRightFunc lastIndexFunc
  rcases lastIndexFuncLoop_spec ws hRE s s.length s.length (le_refl _) (le_refl _) with h | h
  · obtain ⟨j, hj0, hjl, hres, hrun, hns⟩ := h
    rw [hres, List.take_length] at *
    have hl : (s.take j).length = j := by rw [List.length_take]; omega
    have hne : s.take j ≠ [] := by
      intro h
      have := congrArg List.length h
      rw [hl] at this
      simp only [List.length_nil] at this
      omega
    obtain ⟨hsz1, hsz2⟩ := decodeLastRune_size (s.take j) hne
    rw [hl] at hsz2
    have hkey : (if (s.getD (j - (DecodeLastRune (s.take j)).2) 0).val ≥ RuneSelf then
          s.take (j - (DecodeLastRune (s.take j)).2
            + (DecodeRune (s.drop (j - (DecodeLastRune (s.take j)).2))).2)
        else s.take (j - (DecodeLastRune (s.take j)).2 + 1)) = s.take j := by
      rcases decodeLastRune_cases (s.take j) with h | h | h
      · exact absurd h.1 hne
      · rw [h]
        simp only
        have hd : s.drop (j - 1) = s.getD (j - 1) 0 :: s.drop j := by
          rw [List.getD_eq_getElem s 0 (by omega)]
          have := List.drop_eq_getElem_cons (l := s) (n := j - 1) (by omega)
          rw [this]
          congr 2
          omega
        by_cases hc : (s.getD (j - 1) 0).val ≥ RuneSelf
        · rw [if_pos hc, hd,
            decodeRune_before_spaceRun ws _ _ (by unfold RuneSelf at hc; omega) hrun]
          congr 1; omega
        · rw [if_neg hc]
          congr 1; omega
      · obtain ⟨r, hv, ⟨u, hu⟩, hd⟩ := h
        obtain ⟨b, t, henc, hstart, hascii, hmulti, _, _⟩ := utf8Encode_shape r hv
        rw [hd]
        simp only
        have hlenu : u.length + (utf8Encode r).length = j := by
          have := congrArg List.length hu
          rw [List.length_append, hl] at this
          exact this
        have hu2 : u = s.take (j - (utf8Encode r).length) := by
          have h1 : (s.take j).take u.length = u := by rw [← hu, List.take_left]
          rw [List.take_take, Nat.min_eq_left (by omega)] at h1
          rw [← h1]; congr 1; omega
        have hs : s = u ++ (utf8Encode r ++ s.drop j) := by
          conv_lhs => rw [← List.take_append_drop j s, ← hu, List.append_assoc]
        have hdrop : s.drop (j - (utf8Encode r).length) = utf8Encode r ++ s.drop j := by
          conv_lhs => rw [hs]
          rw [List.drop_left' (by omega)]
        have hget : s.getD (j - (utf8Encode r).length) 0 = b := by
          have := getD_drop s (j - (utf8Encode r).length) 0 0
          rw [Nat.add_zero] at this
          rw [← this, hdrop, henc]
          rfl
        rw [hget]
        by_cases hc : b.val ≥ RuneSelf
        · rw [if_pos hc, hdrop, decodeRune_utf8Encode r _ hv]
          congr 1; omega
        · rw [if_neg hc]
          obtain ⟨ht, _⟩ := hascii (by unfold RuneSelf at hc; omega)
          have : (utf8Encode r).length = 1 := by rw [henc, ht]; rfl
          congr 1; omega
    simp only [hkey]
    refine ⟨s.drop j, (List.take_append_drop j s).symm, hrun, ?_⟩
    intro w hw hsuf
    have := decodeLastRune_of_spaceCode ws w _ hw hsuf
    rw [hns] at this
    exact absurd this (by simp)
  · obtain ⟨hres, hrun⟩ := h
    rw [hres]
    rw [List.take_length] at hrun
    refine ⟨s, by simp, hrun, ?_⟩
    intro w hw hsuf
    simp only [List.take_zero] at hsuf
    exact spaceCode_ne_nil ws w hw (List.suffix_nil.mp hsuf)

/-- `TrimFunc` with `unicode.IsSpace` takes white space off both ends and
leaves nothing that starts or ends with white space. -/
theorem trimFunc_spec (ws : Nat → Bool) (hRE : ws RuneError = false) (s : GoString) :
    ∃ pre post : GoString, s = pre ++ TrimFunc s (IsSpace ws) ++ post
      ∧ SpaceRun ws pre ∧ SpaceRun ws post
      ∧ (∀ w, IsSpaceCode ws w → ¬ w <+: TrimFunc s (IsSpace ws))
      ∧ (∀ w, IsSpaceCode ws w → ¬ w <:+ TrimFunc s (IsSpace ws)) := by
  obtain ⟨pre, hpre, hrunpre, hnopre⟩ := trimLeftFunc_spec ws hRE s
  obtain ⟨post, hpost, hrunpost, hnosuf⟩ :=
    trimRightFunc_spec ws hRE (TrimLeftFunc s (IsSpace ws))
  unfold TrimFunc
  refine ⟨pre, post, ?_, hrunpre, hrunpost, ?_, hnosuf⟩
  · rw [List.append_assoc, ← hpost]; exact hpre
  · intro w hw hp
    apply hnopre w hw
    rw [hpost]
    exact hp.trans (List.prefix_append _ _)

theorem isSpace_ascii (ws : Nat → Bool) (c : Byte) (hc : c.val < 0x80) :
    IsSpace ws c.val = asciiSpace c := by
  unfold IsSpace asciiSpace
  rw [if_pos (by omega)]
  have h1 : decide (c.val = 0x85) = false := by simp; omega
  have h2 : decide (c.val = 0xA0) = false := by simp; omega
  rw [h1, h2]
  simp

theorem utf8Encode_ascii (c : Byte) (hc : c.val < 0x80) : utf8Encode c.val = [c] := by
  unfold utf8Encode
  rw [if_pos hc, fin_ofNat_self]

theorem asciiSpace_spaceCode (ws : Nat → Bool) (c : Byte) (hc : c.val < 0x80)
    (hs : asciiSpace c = true) : IsSpaceCode ws [c] :=
  ⟨c.val, Or.inl (by omega), by rw [isSpace_ascii ws c hc]; exact hs,
    (utf8Encode_ascii c hc).symm⟩

theorem no_spaceCode_front_of_ascii (ws : Nat → Bool) (c : Byte) (t : GoString)
    (hc : c.val < 0x80) (hs : asciiSpace c = false) :
    ∀ w, IsSpaceCode ws w → ¬ w <+: c :: t := by
  intro w hw hpre
  have h := decodeRune_of_spaceCode ws w _ hw hpre
  rw [decodeRune_ascii c t hc] at h
  simp only at h
  rw [isSpace_ascii ws c hc, hs] at h
  exact absurd h (by simp)

theorem no_spaceCode_back_of_ascii (ws : Nat → Bool) (c : Byte) (q : GoString)
    (hc : c.val < 0x80) (hs : asciiSpace c = false) :
    ∀ w, IsSpaceCode ws w → ¬ w <:+ q ++ [c] := by
  intro w hw hsuf
  have h := decodeLastRune_of_spaceCode ws w _ hw hsuf
  have hd := decodeLastRune_append_utf8Encode q c.val (Or.inl (by omega))
  rw [utf8Encode_ascii c hc] at hd
  rw [hd] at h
  simp only at h
  rw [isSpace_ascii ws c hc, hs] at h
  exact absurd h (by simp)

/-- The first loop of `TrimSpace` passes over white space only. -/
theorem trimSpaceStart_spec (ws : Nat → Bool) (s : GoString) :
    ∀ (fuel start : Nat), start ≤ s.length → s.length - start ≤ fuel →
      ∃ i, start ≤ i ∧ i ≤ s.length ∧ SpaceRun ws ((s.drop start).take (i - start))
        ∧ ((trimSpaceStart s fuel start = Sum.inl i
              ∧ (i < s.length → (s.getD i 0).val < 0x80 ∧ asciiSpace (s.getD i 0) = false))
            ∨ trimSpaceStart s fuel start = Sum.inr i) := by
  intro fuel
  induction fuel with
  | zero =>
    intro start h1 h2
    refine ⟨start, le_refl _, h1, ?_, Or.inl ⟨rfl, fun h => by omega⟩⟩
    rw [Nat.sub_self, List.take_zero]
    exact SpaceRun.nil
  | succ fuel ih =>
    intro start h1 h2
    unfold trimSpaceStart
    have hnil : SpaceRun ws ((s.drop start).take (start - start)) := by
      rw [Nat.sub_self, List.take_zero]
      exact SpaceRun.nil
    by_cases hlt : start < s.length
    · rw [if_pos hlt]
      simp only
      by_cases hc : (s.getD start 0).val ≥ RuneSelf
      · rw [if_pos hc]
        exact ⟨start, le_refl _, h1, hnil, Or.inr rfl⟩
      · rw [if_neg hc]
        have hc2 : (s.getD start 0).val < 0x80 := by unfold RuneSelf at hc; omega
        by_cases hs : asciiSpace (s.getD start 0) = false
        · rw [if_pos hs]
          exact ⟨start, le_refl _, h1, hnil, Or.inl ⟨rfl, fun _ => ⟨hc2, hs⟩⟩⟩
        · rw [if_neg hs]
          have hs2 : asciiSpace (s.getD start 0) = true := by simpa using hs
          obtain ⟨i, hi1, hi2, hrun, hres⟩ := ih (start + 1) (by omega) (by omega)
          refine ⟨i, by omega, hi2, ?_, hres⟩
          have hd : s.drop start = [s.getD start 0] ++ s.drop (start + 1) := by
            rw [List.getD_eq_getElem s 0 hlt]
            exact List.drop_eq_getElem_cons hlt
          rw [hd, List.take_append_eq_append_take,
            List.take_of_length_le (by simp only [List.length_singleton]; omega)]
          simp only [List.length_singleton]
          have : i - start - 1 = i - (start + 1) := by omega
          rw [this]
          exact spaceRun_append ws _ _
            (spaceRun_single ws _ (asciiSpace_spaceCode ws _ hc2 hs2)) hrun
    · rw [if_neg hlt]
      exact ⟨start, le_refl _, h1, hnil, Or.inl ⟨rfl, fun h => absurd h hlt⟩⟩

/-- The second loop of `TrimSpace` passes over white space only. -/
theorem trimSpaceStop_spec (ws : Nat → Bool) (s : GoString) (start : Nat) :
    ∀ k : Nat, k ≤ s.length → start ≤ k →
      ∃ j, start ≤ j ∧ j ≤ k ∧ SpaceRun ws ((s.take k).drop j)
        ∧ ((trimSpaceStop s start k = Sum.inl j
              ∧ (start < j → (s.getD (j - 1) 0).val < 0x80
                  ∧ asciiSpace (s.getD (j - 1) 0) = false))
            ∨ trimSpaceStop s start k = Sum.inr j) := by
  intro k
  induction k with
  | zero =>
    intro h1 h2
    refine ⟨0, h2, le_refl _, ?_, Or.inl ⟨rfl, fun h => by omega⟩⟩
    rw [List.take_zero, List.drop_nil]
    exact SpaceRun.nil
  | succ k ih =>
    intro h1 h2
    unfold trimSpaceStop
    have hnil : SpaceRun ws ((s.take (k + 1)).drop (k + 1)) := by
      rw [List.drop_eq_nil_of_le (by rw [List.length_take]; omega)]
      exact SpaceRun.nil
    by_cases hlt : start < k + 1
    · rw [if_pos hlt]
      simp only
      by_cases hc : (s.getD k 0).val ≥ RuneSelf
      · rw [if_pos hc]
        exact ⟨k + 1, h2, le_refl _, hnil, Or.inr rfl⟩
      · rw [if_neg hc]
        have hc2 : (s.getD k 0).val < 0x80 := by unfold RuneSelf at hc; omega
        by_cases hs : asciiSpace (s.getD k 0) = false
        · rw [if_pos hs]
          exact ⟨k + 1, h2, le_refl _, hnil, Or.inl ⟨rfl, fun _ => ⟨hc2, hs⟩⟩⟩
        · rw [if_neg hs]
          have hs2 : asciiSpace (s.getD k 0) = true := by simpa using hs
          obtain ⟨j, hj1, hj2, hrun, hres⟩ := ih (by omega) (by omega)
          refine ⟨j, hj1, by omega, ?_, hres⟩
          have ht : s.take (k + 1) = s.take k ++ [s.getD k 0] := by
            rw [List.getD_eq_getElem s 0 (by omega)]
            have hk : k < s.length := by omega
            rw [← List.take_concat_get s k hk, List.concat_eq_append]
          rw [ht, List.drop_append_of_le_length (by rw [List.length_take]; omega)]
          exact spaceRun_append ws _ _ hrun
            (spaceRun_single ws _ (asciiSpace_spaceCode ws _ hc2 hs2))
    · rw [if_neg hlt]
      exact ⟨k + 1, h2, le_refl _, hnil, Or.inl ⟨rfl, fun h => absurd h hlt⟩⟩

theorem eq_take_mid_drop (s : GoString) (i j : Nat) (hij : i ≤ j) :
    s = s.take i ++ (s.take j).drop i ++ s.drop j := by
  have h1 : s.take j = s.take i ++ (s.take j).drop i := by
    have := (List.take_append_drop i (s.take j)).symm
    rwa [List.take_take, Nat.min_eq_left hij] at this
  rw [← h1, List.take_append_drop]

/-- `bytes.TrimSpace` takes white space off both ends of its argument and
leaves nothing that starts or ends with white space. -/
theorem trimSpace_spec (ws : Nat → Bool) (hRE : ws RuneError = false) (s : GoString) :
    ∃ pre post : GoString, s = pre ++ TrimSpace ws s ++ post
      ∧ SpaceRun ws pre ∧ SpaceRun ws post
      ∧ (∀ w, IsSpaceCode ws w → ¬ w <+: TrimSpace ws s)
      ∧ (∀ w, IsSpaceCode ws w → ¬ w <:+ TrimSpace ws s) := by
  unfold TrimSpace
  obtain ⟨i, _, hi2, hrunL, hresL⟩ :=
    trimSpaceStart_spec ws s s.length 0 (Nat.zero_le _) (by omega)
  simp only [List.drop_zero, Nat.sub_zero] at hrunL
  rcases hresL with ⟨hL, hascL⟩ | hL
  · rw [hL]
    simp only
    obtain ⟨j, hj1, hj2, hrunR, hresR⟩ := trimSpaceStop_spec ws s i s.length (le_refl _) hi2
    rw [List.take_length] at hrunR
    rcases hresR with ⟨hR, hascR⟩ | hR
    · rw [hR]
      simp only
      by_cases hij : i = j
      · rw [if_pos hij]
        refine ⟨s.take i, s.drop j, ?_, hrunL, hrunR, ?_, ?_⟩
        · rw [List.append_nil, hij, List.take_append_drop]
        · intro w hw hp
          exact spaceCode_ne_nil ws w hw (List.prefix_nil.mp hp)
        · intro w hw hp
          exact spaceCode_ne_nil ws w hw (List.suffix_nil.mp hp)
      · rw [if_neg hij]
        have hlt : i < j := by omega
        obtain ⟨hc1, hs1⟩ := hascL (by omega)
        obtain ⟨hc2, hs2⟩ := hascR hlt
        refine ⟨s.take i, s.drop j, eq_take_mid_drop s i j hj1, hrunL, hrunR, ?_, ?_⟩
        · have hX : (s.take j).drop i = s.getD i 0 :: (s.take j).drop (i + 1) := by
            have hlen : i < (s.take j).length := by rw [List.length_take]; omega
            rw [← getD_take s j i 0 hlt, List.getD_eq_getElem (s.take j) 0 hlen]
            exact List.drop_eq_getElem_cons hlen
          rw [hX]
          exact no_spaceCode_front_of_ascii ws _ _ hc1 hs1
        · have hX : (s.take j).drop i = (s.take (j - 1)).drop i ++ [s.getD (j - 1) 0] := by
            have ht : s.take j = s.take (j - 1) ++ [s.getD (j - 1) 0] := by
              have hk : j - 1 < s.length := by omega
              rw [List.getD_eq_getElem s 0 hk, ← List.concat_eq_append,
                List.take_concat_get s (j - 1) hk]
              congr 1; omega
            conv_lhs => rw [ht]
            rw [List.drop_append_of_le_length (by rw [List.length_take]; omega)]
          rw [hX]
          exact no_spaceCode_back_of_ascii ws _ _ hc2 hs2
    · rw [hR]
      simp only
      obtain ⟨pre, post, hsplit, hpre, hpost, hnp, hns⟩ :=
        trimFunc_spec ws hRE ((s.take j).drop i)
      refine ⟨s.take i ++ pre, post ++ s.drop j, ?_, spaceRun_append ws _ _ hrunL hpre,
        spaceRun_append ws _ _ hpost hrunR, hnp, hns⟩
      conv_lhs => rw [eq_take_mid_drop s i j hj1, hsplit]
      simp only [List.append_assoc]
  · rw [hL]
    simp only
    obtain ⟨pre, post, hsplit, hpre, hpost, hnp, hns⟩ := trimFunc_spec ws hRE (s.drop i)
    refine ⟨s.take i ++ pre, post, ?_, spaceRun_append ws _ _ hrunL hpre, hpost, hnp, hns⟩
    conv_lhs => rw [← List.take_append_drop i s, hsplit]
    simp only [List.append_assoc]

/-- The message that `Sprintf` builds from the format of `Error`. -/
theorem sprintf_error_format (a b c : GoString) :
    Sprintf (lit "error executing: %s:\n%s\n%s") [a, b, c]
      = lit "error executing: " ++ a ++ lit ":\n" ++ b ++ lit "\n" ++ c := by
  simp [Sprintf, lit]

/-- C14: for every `CommandError` value, `Error()` returns `"error executing: "`,
the stored `fullCommand`, `":\n"`, the stored standard-error bytes as they are,
`"\n"`, and the stored standard-output bytes with the white space at their
front and at their end taken off: what is taken off on either side is a
sequence of encoded white-space code points, and what remains neither starts
nor ends with one.  The receiver is the same after the call. -/
theorem commandError_Error_message (White_Space : Nat → Bool)
    (hRE : White_Space RuneError = false) (e : CommandError) :
    (e.Error White_Space).1
        = lit "error executing: " ++ e.fullCommand ++ lit ":\n" ++ e.err ++ lit "\n"
            ++ TrimSpace White_Space e.out
      ∧ (∃ pre post : GoString, e.out = pre ++ TrimSpace White_Space e.out ++ post
          ∧ SpaceRun White_Space pre ∧ SpaceRun White_Space post
          ∧ (∀ w, IsSpaceCode White_Space w → ¬ w <+: TrimSpace White_Space e.out)
          ∧ (∀ w, IsSpaceCode White_Space w → ¬ w <:+ TrimSpace White_Space e.out))
      ∧ (e.Error White_Space).2 = e :=
  ⟨sprintf_error_format _ _ _, trimSpace_spec White_Space hRE e.out, rfl⟩

/-- C14 at a failed `go build` whose standard output has a no-break space, a
tab and a line end around `out put`, with the white space of Unicode 6.3. -/
theorem commandError_Error_message_witness :
    unicodeWhiteSpace RuneError = false
      ∧ (errSample.Error unicodeWhiteSpace).1
          = lit "error executing: /usr/bin/go build x:\nboom\n\nout put"
      ∧ (errSample.Error unicodeWhiteSpace).1
          = lit "error executing: " ++ errSample.fullCommand ++ lit ":\n" ++ errSample.err
              ++ lit "\n" ++ TrimSpace unicodeWhiteSpace errSample.out
      ∧ (errSample.Error unicodeWhiteSpace).2 = errSample :=
  ⟨by decide, by decide,
    (commandError_Error_message unicodeWhiteSpace (by decide) errSample).1,
    (commandError_Error_message unicodeWhiteSpace (by decide) errSample).2.2⟩

end GoTool
